import Mathlib

/-!
# video-to-dataset: `utils/video.go`

A shallow embedding of the media helpers of `utils/video.go` and the properties
of their behaviour.

Modelling conventions.

* A Go `string` is a Lean `String`, read as its sequence of code points.  Bytes
  that are not valid UTF-8 behave in `strings.TrimSpace` and `strconv.Atoi` like
  any other character that is neither a space nor a digit.
* Go's `int` is the 64-bit `int` of the usual targets: an `Int` together with
  the explicit range checks `strconv` performs.
* A `float32` is an IEEE-754 binary32 value, modelled exactly: every arithmetic
  operation computes the exact rational result and rounds it to nearest, ties
  to even.  The conversion `int(x)` of a value that does not fit `int`, which
  Go leaves to the implementation, is the one of amd64 (`-2^63`).
* External processes and the file system are an environment `Env` that supplies
  the outcome of every call; the functions return the list of calls they made
  together with their result.
-/

deriving instance DecidableEq for Except

namespace VideoToDataset

/-! ## Strings: `strings.TrimSpace`, `strings.Split`, `strconv.Atoi`, `%d` -/

/-- Go's `unicode.IsSpace`: the Latin-1 spaces `\t \n \v \f \r`, space, U+0085,
U+00A0, and the other code points with the Unicode White_Space property. -/
def isSpace (c : Char) : Bool :=
  let n := c.toNat
  (0x09 ≤ n && n ≤ 0x0D) || n == 0x20 || n == 0x85 || n == 0xA0 || n == 0x1680 ||
  (0x2000 ≤ n && n ≤ 0x200A) || n == 0x2028 || n == 0x2029 || n == 0x202F ||
  n == 0x205F || n == 0x3000

/-- Go's `strings.TrimSpace`: drop leading and trailing white space. -/
def TrimSpace (s : List Char) : List Char :=
  ((s.dropWhile isSpace).reverse.dropWhile isSpace).reverse

/-- Go's `strings.Split(s, "x")`: the pieces of `s` between the occurrences of
`x`; always at least one piece. -/
def SplitX : List Char → List (List Char)
  | [] => [[]]
  | c :: cs =>
    if c = 'x' then [] :: SplitX cs
    else
      match SplitX cs with
      | [] => [[c]]
      | p :: ps => (c :: p) :: ps

/-- The two errors of `strconv`: `ErrSyntax` and `ErrRange`. -/
inductive NumError
  | errSyntax
  | errRange
  deriving DecidableEq

/-- The value of an ASCII decimal digit. -/
def digitVal (c : Char) : Option Nat :=
  if 48 ≤ c.toNat ∧ c.toNat ≤ 57 then some (c.toNat - 48) else none

/-- Largest `uint64`. -/
def maxUint64 : Nat := 2 ^ 64 - 1

/-- The digit loop of `strconv.ParseUint(s, 10, 64)`: a character that is not a
digit is a syntax error, a value above `maxUint64` a range error, whichever
comes first from the left. -/
def parseUintLoop : List Char → Nat → Except NumError Nat
  | [], n => .ok n
  | c :: cs, n =>
    match digitVal c with
    | none => .error .errSyntax
    | some d =>
      if maxUint64 / 10 + 1 ≤ n then .error .errRange
      else if maxUint64 < n * 10 + d then .error .errRange
      else parseUintLoop cs (n * 10 + d)

/-- Go's `strconv.ParseUint(s, 10, 64)`. -/
def ParseUint (s : List Char) : Except NumError Nat :=
  match s with
  | [] => .error .errSyntax
  | _ => parseUintLoop s 0

/-- Go's `strconv.ParseInt(s, 10, 0)` on a 64-bit target. -/
def ParseInt (s : List Char) : Except NumError Int :=
  match s with
  | [] => .error .errSyntax
  | c :: cs =>
    let neg := c = '-'
    let body := if c = '+' ∨ c = '-' then cs else c :: cs
    match ParseUint body with
    | .error e => .error e
    | .ok un =>
      if ¬ neg ∧ 2 ^ 63 ≤ un then .error .errRange
      else if neg ∧ 2 ^ 63 < un then .error .errRange
      else .ok (if neg then -(un : Int) else (un : Int))

/-- The digit loop of the fast path of `strconv.Atoi`. -/
def atoiFastLoop : List Char → Nat → Option Nat
  | [], n => some n
  | c :: cs, n =>
    match digitVal c with
    | none => none
    | some d => atoiFastLoop cs (n * 10 + d)

/-- Number of bytes of a string, Go's `len(s)`. -/
def byteLen (s : List Char) : Nat := (s.map Char.utf8Size).sum

/-- Go's `strconv.Atoi` on a 64-bit target: strings of 1 to 18 bytes take the
fast path, all others go through `ParseInt`. -/
def Atoi (s : List Char) : Except NumError Int :=
  if 0 < byteLen s ∧ byteLen s < 19 then
    match s with
    | [] => .error .errSyntax
    | c :: cs =>
      let body := if c = '-' ∨ c = '+' then cs else c :: cs
      if body.length < 1 then .error .errSyntax
      else
        match atoiFastLoop body 0 with
        | none => .error .errSyntax
        | some n => .ok (if c = '-' then -(n : Int) else (n : Int))
  else ParseInt s

/-- The decimal digit character of `d < 10`. -/
def digitChar (d : Nat) : Char := Char.ofNat (48 + d)

/-- The decimal digits of `n`, most significant first, pushed in front of
`acc`; `fuel` bounds the number of digits. -/
def natDigits : Nat → Nat → List Char → List Char
  | 0, _, acc => acc
  | fuel + 1, n, acc =>
    if n < 10 then digitChar n :: acc
    else natDigits fuel (n / 10) (digitChar (n % 10) :: acc)

/-- The decimal text of a natural number. -/
def fmtNat (n : Nat) : List Char := natDigits (n + 1) n []

/-- The verb `%d` of Go's `fmt` on an `int`: a minus sign for a negative
number, then the decimal digits. -/
def fmtInt (i : Int) : List Char :=
  if i < 0 then '-' :: fmtNat i.natAbs else fmtNat i.natAbs

/-! ### Decimal integers, as the specification words them -/

/-- An ASCII decimal digit. -/
def isDecimalDigit (c : Char) : Bool := decide (48 ≤ c.toNat ∧ c.toNat ≤ 57)

/-- The number a string of decimal digits denotes. -/
def digitsValue (ds : List Char) : Nat := ds.foldl (fun a c => a * 10 + (c.toNat - 48)) 0

/-- The integer a text denotes when it is a decimal integer: an optional sign
`+` or `-` followed by one or more decimal digits; `none` for any other
text. -/
def decimalInteger? : List Char → Option Int
  | [] => none
  | c :: cs =>
    let ds := if c = '-' ∨ c = '+' then cs else c :: cs
    if ds ≠ [] ∧ ds.all isDecimalDigit = true then
      some (if c = '-' then -(digitsValue ds : Int) else (digitsValue ds : Int))
    else none

/-! ## IEEE-754 binary32 arithmetic -/

/-- A `float32`.  `fin neg m e` is the finite value `(-1)^neg * m * 2^e`. -/
inductive F32
  | nan
  | inf (neg : Bool)
  | fin (neg : Bool) (m : Nat) (e : Int)
  deriving DecidableEq

namespace F32

/-- The finite values a binary32 can hold: 24 significant bits, exponent of the
last bit between -149 and 104. -/
def Representable : F32 → Prop
  | fin _ m e => m < 2 ^ 24 ∧ -149 ≤ e ∧ e ≤ 104
  | _ => True

instance (x : F32) : Decidable (Representable x) := by
  cases x <;> unfold Representable <;> infer_instance

/-- The exact value of a finite `float32`; `0` for the others. -/
def toRat : F32 → ℚ
  | fin neg m e => (if neg then -1 else 1) * (m : ℚ) * (2 : ℚ) ^ e
  | _ => 0

/-- Is the value finite. -/
def isFinite : F32 → Bool
  | fin _ _ _ => true
  | _ => false

/-- IEEE comparison `x < y`; false when an operand is NaN. -/
def lt : F32 → F32 → Prop
  | nan, _ => False
  | _, nan => False
  | inf true, inf true => False
  | inf true, _ => True
  | _, inf true => False
  | inf false, _ => False
  | fin _ _ _, inf false => True
  | fin s m e, fin t n f => toRat (fin s m e) < toRat (fin t n f)

/-- IEEE comparison `x ≤ y`; false when an operand is NaN. -/
def le : F32 → F32 → Prop
  | nan, _ => False
  | _, nan => False
  | inf true, _ => True
  | _, inf false => True
  | inf false, _ => False
  | _, inf true => False
  | fin s m e, fin t n f => toRat (fin s m e) ≤ toRat (fin t n f)

/-- Positive zero. -/
def zero : F32 := fin false 0 (-149)

/-- Nearest integer to `n / d`, ties to the even one. -/
def roundHalfEven (n d : Nat) : Nat :=
  let q := n / d
  let r := n % d
  if 2 * r < d then q
  else if d < 2 * r then q + 1
  else if q % 2 = 0 then q else q + 1

/-- Position of the leading binary digit of `n`, by halving at most `fuel`
times. -/
def log2Aux : Nat → Nat → Nat
  | 0, _ => 0
  | fuel + 1, n => if n < 2 then 0 else log2Aux fuel (n / 2) + 1

/-- For `n > 0`: the `p` with `2^p ≤ n < 2^(p+1)`. -/
def log2 (n : Nat) : Nat := log2Aux n n

/-- For `n, d > 0`: the integer `l` with `2^l ≤ n / d < 2^(l+1)`. -/
def ilog2 (n d : Nat) : Int :=
  let p := log2 n
  let q := log2 d
  if d * 2 ^ p ≤ n * 2 ^ q then (p : Int) - q else (p : Int) - q - 1

/-- The exponent of the unit in the last place for the magnitude `n / d`:
23 below the leading binary digit, and never below -149. -/
def ulpExp (n d : Nat) : Int := max (ilog2 n d - 23) (-149)

/-- The magnitude `n / d` in units of `2^E`, rounded to the nearest integer,
ties to even. -/
def significand (n d : Nat) (E : Int) : Nat :=
  if 0 ≤ E then roundHalfEven n (d * 2 ^ E.toNat)
  else roundHalfEven (n * 2 ^ (-E).toNat) d

/-- The `float32` of significand `k ≤ 2^24` and exponent `E`: a significand
that rounding carried to `2^24` moves to the next exponent, and an exponent
above 104 is beyond the largest finite value and gives an infinity. -/
def pack (neg : Bool) (k : Nat) (E : Int) : F32 :=
  if k = 2 ^ 24 then (if 104 < E + 1 then inf neg else fin neg (2 ^ 23) (E + 1))
  else if 104 < E then inf neg else fin neg k E

/-- Round the exact value `(-1)^neg * n / d` (`d > 0`) to binary32, to nearest
with ties to even. -/
def round (neg : Bool) (n d : Nat) : F32 :=
  if n = 0 then fin neg 0 (-149)
  else pack neg (significand n d (ulpExp n d)) (ulpExp n d)

/-- Conversion `float32(i)` of an `int`. -/
def ofInt (i : Int) : F32 := round (decide (i < 0)) i.natAbs 1

/-- Division `x / y` of two `float32`. -/
def div : F32 → F32 → F32
  | nan, _ => nan
  | _, nan => nan
  | inf _, inf _ => nan
  | inf s, fin t _ _ => inf (xor s t)
  | fin s _ _, inf t => fin (xor s t) 0 (-149)
  | fin s m e, fin t n f =>
    if n = 0 then (if m = 0 then nan else inf (xor s t))
    else if f ≤ e then round (xor s t) (m * 2 ^ (e - f).toNat) n
    else round (xor s t) m (n * 2 ^ (f - e).toNat)

/-- Multiplication `x * y` of two `float32`. -/
def mul : F32 → F32 → F32
  | nan, _ => nan
  | _, nan => nan
  | inf s, inf t => inf (xor s t)
  | inf s, fin t n _ => if n = 0 then nan else inf (xor s t)
  | fin s m _, inf t => if m = 0 then nan else inf (xor s t)
  | fin s m e, fin t n f =>
    if 0 ≤ e + f then round (xor s t) (m * n * 2 ^ (e + f).toNat) 1
    else round (xor s t) (m * n) (2 ^ (-(e + f)).toNat)

/-- Conversion `int(x)` of a `float32` to a 64-bit `int`: the value truncated
towards zero.  For a NaN, an infinity or a value outside the range of `int` Go
leaves the result to the implementation; this is the amd64 one, where the
conversion instruction yields `-2^63`. -/
def toInt : F32 → Int
  | fin neg m e =>
    let t : Nat := if 0 ≤ e then m * 2 ^ e.toNat else m / 2 ^ (-e).toNat
    let v : Int := if neg then -(t : Int) else (t : Int)
    if -2 ^ 63 ≤ v ∧ v < 2 ^ 63 then v else -2 ^ 63
  | _ => -2 ^ 63

end F32

/-! ## The environment -/

/-- The outside world of one call: the file system and the three external
tools.  Errors of the operating system and of a subprocess are carried as
their message. -/
structure Env where
  /-- Outcome of `os.MkdirAll(dir, 0755)`; `none` is success. -/
  mkdirAll : String → Option String
  /-- Outcome of `cmd.Output()` for `mediainfo --Inform=General;%Duration%` on
  a file: the standard output, or the error. -/
  mediainfo : String → Except String String
  /-- Outcome of `cmd.Output()` for the `ffprobe` width and height query on a
  file. -/
  ffprobe : String → Except String String
  /-- Outcome of the run number `j` (counted from 0 within the call) of
  `ffmpeg` with the given arguments; `none` is success. -/
  ffmpeg : Nat → List String → Option String
  /-- The text `strconv.FormatFloat(float64(t), 102, -1, 32)` of a timestamp
  (format `f`). -/
  formatFloat : F32 → String

/-! ## `GetVideoDuration` -/

/-- The errors of `GetVideoDuration`: `cmd.Output: ...` and
`strconv.Atoi: ...`. -/
inductive DurationError
  | cmdOutput (e : String)
  | atoi (e : NumError)
  deriving DecidableEq

/-- The function `GetVideoDuration(fileName)`: run the probe, trim its output,
parse it as an integer number of milliseconds and divide by 1000 in
`float32`. -/
def GetVideoDuration (env : Env) (fileName : String) : Except DurationError F32 :=
  match env.mediainfo fileName with
  | .error e => .error (.cmdOutput e)
  | .ok output =>
    match Atoi (TrimSpace output.toList) with
    | .error e => .error (.atoi e)
    | .ok intMiliseconds => .ok (F32.div (F32.ofInt intMiliseconds) (F32.ofInt 1000))

/-! ## `GetVideoDimensions` -/

/-- How a call of `GetVideoDimensions` ends: it returns a width and a height,
it returns an error, it panics on an index out of range, or `log.Fatalf` ends
the process. -/
inductive DimensionsResult
  | ok (width height : Int)
  | error (e : NumError)
  | panicIndexOutOfRange
  | fatal
  deriving DecidableEq

/-- The function `GetVideoDimensions(inputVideo)`.  The message printed on success is not
modelled. -/
def GetVideoDimensions (env : Env) (inputVideo : String) : DimensionsResult :=
  match env.ffprobe inputVideo with
  | .error _ => .fatal
  | .ok output =>
    match SplitX (TrimSpace output.toList) with
    | [] => .panicIndexOutOfRange
    | s0 :: rest =>
      match Atoi s0 with
      | .error e => .error e
      | .ok wid =>
        match rest with
        | [] => .panicIndexOutOfRange
        | s1 :: _ =>
          match Atoi s1 with
          | .error e => .error e
          | .ok hei => .ok wid hei

/-! ## `ExtractFrame` and `ExtractVideoFrames` -/

/-- The error of `ExtractFrame`: `cmd.Run: ...`. -/
inductive FrameError
  | cmdRun (e : String)
  deriving DecidableEq

/-- The errors of `ExtractVideoFrames`: `os.MkdirAll: ...`,
`getVideoDuration: ...` and `extractFrame: file: ..., time: ..., seconds: ...`,
each with the values it is built from. -/
inductive SampleError
  | mkdirAll (e : String)
  | getVideoDuration (e : DurationError)
  | extractFrame (file : String) (time : F32) (e : FrameError)
  deriving DecidableEq

/-- The output file of `ExtractFrame`:
`fmt.Sprintf("%sframe_%d.jpg", outputDir, frameNum)`. -/
def outputFile (outputDir : String) (frameNum : Int) : String :=
  outputDir ++ "frame_" ++ String.mk (fmtInt frameNum) ++ ".jpg"

/-- The arguments `ExtractFrame` passes to `ffmpeg`. -/
def frameArgs (env : Env) (outputDir inputFile : String) (frameNum : Int)
    (timestamp : F32) : List String :=
  ["-ss", env.formatFloat timestamp, "-i", inputFile, "-frames:v", "1",
   outputFile outputDir frameNum]

/-- The function `ExtractFrame(outputDir, inputFile, frameNum, timestamp)`, as run number
`j` of the transcoder. -/
def ExtractFrame (env : Env) (j : Nat) (outputDir inputFile : String) (frameNum : Int)
    (timestamp : F32) : Option FrameError :=
  match env.ffmpeg j (frameArgs env outputDir inputFile frameNum timestamp) with
  | some err => some (.cmdRun err)
  | none => none

/-- One call of `ExtractFrame`, with its arguments. -/
structure FrameCall where
  outputDir : String
  inputFile : String
  frameNum : Int
  timestamp : F32
  deriving DecidableEq

/-- The loop `for i := 0; i < frameCount; i++` of `ExtractVideoFrames`, from
index `i` with `remaining = frameCount - i` iterations to go: the calls of
`ExtractFrame` it makes and the error it returns, if any. -/
def extractLoop (env : Env) (outputDir inputFile : String) (interval : F32) :
    Nat → Nat → List FrameCall × Option SampleError
  | 0, _ => ([], none)
  | remaining + 1, i =>
    let time := F32.mul (F32.ofInt (i : Int)) interval
    let call : FrameCall := ⟨outputDir, inputFile, (i : Int), time⟩
    match ExtractFrame env i outputDir inputFile (i : Int) time with
    | some err => ([call], some (.extractFrame inputFile time err))
    | none =>
      let rest := extractLoop env outputDir inputFile interval remaining (i + 1)
      (call :: rest.1, rest.2)

/-- The function `ExtractVideoFrames(outputDir, inputFile, interval)`: the calls of
`ExtractFrame` it makes, in order, and the error it returns (`none` for
`nil`). -/
def ExtractVideoFrames (env : Env) (outputDir inputFile : String) (interval : F32) :
    List FrameCall × Option SampleError :=
  match env.mkdirAll outputDir with
  | some err => ([], some (.mkdirAll err))
  | none =>
    match GetVideoDuration env inputFile with
    | .error err => ([], some (.getVideoDuration err))
    | .ok duration =>
      let frameCount := F32.toInt (F32.div duration interval)
      if frameCount = 0 then ([], none)
      else extractLoop env outputDir inputFile interval frameCount.toNat 0

/-! ## `ExtractVideoObjects` -/

/-- Modelled from the spec: the declaration of `data.FrameInfo` is not among
the sources.  A frame descriptor is a timestamp, a size used to name the
output, and a bounding box (the crop geometry); the type of the size is left
open. -/
structure FrameInfo (σ : Type) where
  TimeFrame : String
  Size : σ
  BoundingBox : String

/-- How a call of `ExtractVideoObjects` ends: it returns, `log.Fatalf` ends the
process, or it panics on a nil descriptor. -/
inductive ObjectsResult
  | returned
  | fatal
  | panicNilPointer
  deriving DecidableEq

/-- The name of the output image of entry `i` (counted from 0):
`fmt.Sprintf("image_%s_%f_%d.png", TimeFrame, Size, i+1)`; `fmtSize` is the
text `%f` gives for a size. -/
def outputImage {σ : Type} (fmtSize : σ → String) (frameInfo : FrameInfo σ) (i : Nat) :
    String :=
  "image_" ++ frameInfo.TimeFrame ++ "_" ++ fmtSize frameInfo.Size ++ "_" ++
    String.mk (fmtInt ((i : Int) + 1)) ++ ".png"

/-- The arguments `ExtractVideoObjects` passes to `ffmpeg` for entry `i`. -/
def objectArgs {σ : Type} (fmtSize : σ → String) (file : String) (frameInfo : FrameInfo σ)
    (i : Nat) : List String :=
  ["-ss", frameInfo.TimeFrame, "-i", file, "-frames:v", "1",
   "-filter:v", "crop=" ++ frameInfo.BoundingBox, outputImage fmtSize frameInfo i]

/-- The loop of `ExtractVideoObjects` from entry `i` on: the argument lists of
the `ffmpeg` runs it makes, in order, and how it ends.  An entry of the slice
is a pointer, `none` being nil. -/
def objectsLoop {σ : Type} (env : Env) (fmtSize : σ → String) (file : String) :
    List (Option (FrameInfo σ)) → Nat → List (List String) × ObjectsResult
  | [], _ => ([], .returned)
  | none :: _, _ => ([], .panicNilPointer)
  | some frameInfo :: rest, i =>
    let args := objectArgs fmtSize file frameInfo i
    match env.ffmpeg i args with
    | some _ => ([args], .fatal)
    | none =>
      let r := objectsLoop env fmtSize file rest (i + 1)
      (args :: r.1, r.2)

/-- The function `ExtractVideoObjects(file, frameInfos)`. -/
def ExtractVideoObjects {σ : Type} (env : Env) (fmtSize : σ → String) (file : String)
    (frameInfos : List (Option (FrameInfo σ))) : List (List String) × ObjectsResult :=
  objectsLoop env fmtSize file frameInfos 0

/-- The call of `ExtractFrame` for frame index `k`: frame number `k` at the
timestamp `float32(k) * interval`. -/
def frameCallAt (outputDir inputFile : String) (interval : F32) (k : Nat) : FrameCall :=
  ⟨outputDir, inputFile, (k : Int), F32.mul (F32.ofInt (k : Int)) interval⟩

/-! ## Environments used in the examples -/

/-- An environment in which the directory can be created, both probes print
`probeOutput`, a timestamp is rendered as the empty text and the transcoder
fails exactly at the runs listed in `failing`. -/
def exampleEnv (probeOutput : String) (failing : List Nat) : Env where
  mkdirAll := fun _ => none
  mediainfo := fun _ => .ok probeOutput
  ffprobe := fun _ => .ok probeOutput
  ffmpeg := fun j _ => if j ∈ failing then some "exit status 1" else none
  formatFloat := fun _ => ""

/-- An environment in which the directory can be created, both probes print
`probeOutput`, and the transcoder succeeds at its runs number `0, ..., n-1`
when given at least one argument and fails at every other run. -/
def othersFailEnv (probeOutput : String) (n : Nat) : Env where
  mkdirAll := fun _ => none
  mediainfo := fun _ => .ok probeOutput
  ffprobe := fun _ => .ok probeOutput
  ffmpeg := fun j args => if j < n ∧ args ≠ [] then none else some "exit status 1"
  formatFloat := fun _ => ""

/-- The `float32` nearest to one tenth, `13421773 * 2^-27`. -/
def oneTenth : F32 := .fin false 13421773 (-27)

/-! ## Lemmas on strings -/

theorem digitVal_eq_some {c : Char} (h : isDecimalDigit c = true) :
    digitVal c = some (c.toNat - 48) := by
  simp only [isDecimalDigit, decide_eq_true_eq] at h
  simp [digitVal, h]

theorem digitVal_eq_none {c : Char} (h : ¬ isDecimalDigit c = true) : digitVal c = none := by
  simp only [isDecimalDigit, decide_eq_true_eq] at h
  simp only [digitVal, if_neg h]

theorem foldl_digits_ge (ds : List Char) (a : Nat) :
    a ≤ ds.foldl (fun a c => a * 10 + (c.toNat - 48)) a := by
  induction ds generalizing a with
  | nil => simp
  | cons c cs ih =>
    simp only [List.foldl_cons]
    exact le_trans (by omega) (ih _)

theorem atoiFastLoop_digits (ds : List Char) (a : Nat) (h : ds.all isDecimalDigit = true) :
    atoiFastLoop ds a = some (ds.foldl (fun a c => a * 10 + (c.toNat - 48)) a) := by
  induction ds generalizing a with
  | nil => rfl
  | cons c cs ih =>
    simp only [List.all_cons, Bool.and_eq_true] at h
    simp only [atoiFastLoop, digitVal_eq_some h.1, List.foldl_cons]
    exact ih _ h.2

theorem atoiFastLoop_not_digits (ds : List Char) (a : Nat)
    (h : ¬ ds.all isDecimalDigit = true) : atoiFastLoop ds a = none := by
  induction ds generalizing a with
  | nil => simp at h
  | cons c cs ih =>
    by_cases hc : isDecimalDigit c = true
    · simp only [atoiFastLoop, digitVal_eq_some hc]
      apply ih
      intro hcs
      exact h (by simp [hc, hcs])
    · simp only [atoiFastLoop, digitVal_eq_none hc]

theorem parseUintLoop_digits (ds : List Char) (a : Nat) (h : ds.all isDecimalDigit = true)
    (hmax : ds.foldl (fun a c => a * 10 + (c.toNat - 48)) a ≤ maxUint64) :
    parseUintLoop ds a = .ok (ds.foldl (fun a c => a * 10 + (c.toNat - 48)) a) := by
  induction ds generalizing a with
  | nil => rfl
  | cons c cs ih =>
    simp only [List.all_cons, Bool.and_eq_true] at h
    simp only [List.foldl_cons] at hmax ⊢
    have hge := foldl_digits_ge cs (a * 10 + (c.toNat - 48))
    have h1 : ¬ (maxUint64 / 10 + 1 ≤ a) := by
      simp only [maxUint64] at hmax hge ⊢
      omega
    have h2 : ¬ (maxUint64 < a * 10 + (c.toNat - 48)) := by omega
    simp only [parseUintLoop, digitVal_eq_some h.1, if_neg h1, if_neg h2]
    exact ih _ h.2 hmax

theorem parseUintLoop_not_digits (ds : List Char) (a : Nat)
    (h : ¬ ds.all isDecimalDigit = true) : ∃ e, parseUintLoop ds a = .error e := by
  induction ds generalizing a with
  | nil => simp at h
  | cons c cs ih =>
    by_cases hc : isDecimalDigit c = true
    · simp only [parseUintLoop, digitVal_eq_some hc]
      split
      · exact ⟨_, rfl⟩
      · split
        · exact ⟨_, rfl⟩
        · apply ih
          intro hcs
          exact h (by simp [hc, hcs])
    · exact ⟨.errSyntax, by simp only [parseUintLoop, digitVal_eq_none hc]⟩

theorem ParseUint_digits (ds : List Char) (hne : ds ≠ []) (h : ds.all isDecimalDigit = true)
    (hmax : digitsValue ds ≤ maxUint64) : ParseUint ds = .ok (digitsValue ds) := by
  cases ds with
  | nil => exact absurd rfl hne
  | cons c cs => exact parseUintLoop_digits (c :: cs) 0 h hmax

theorem ParseUint_not_digits (ds : List Char) (h : ¬ (ds ≠ [] ∧ ds.all isDecimalDigit = true)) :
    ∃ e, ParseUint ds = .error e := by
  cases ds with
  | nil => exact ⟨.errSyntax, rfl⟩
  | cons c cs =>
    have h2 : ¬ (c :: cs).all isDecimalDigit = true := fun hd => h ⟨by simp, hd⟩
    exact parseUintLoop_not_digits (c :: cs) 0 h2

theorem decimalInteger?_cons (c : Char) (cs : List Char) :
    decimalInteger? (c :: cs) =
      if (if c = '-' ∨ c = '+' then cs else c :: cs) ≠ [] ∧
          (if c = '-' ∨ c = '+' then cs else c :: cs).all isDecimalDigit = true then
        some (if c = '-' then -(digitsValue (if c = '-' ∨ c = '+' then cs else c :: cs) : Int)
              else (digitsValue (if c = '-' ∨ c = '+' then cs else c :: cs) : Int))
      else none := rfl

theorem Atoi_cons_fast (c : Char) (cs : List Char)
    (h : 0 < byteLen (c :: cs) ∧ byteLen (c :: cs) < 19) :
    Atoi (c :: cs) =
      if (if c = '-' ∨ c = '+' then cs else c :: cs).length < 1 then .error .errSyntax
      else
        match atoiFastLoop (if c = '-' ∨ c = '+' then cs else c :: cs) 0 with
        | none => .error .errSyntax
        | some n => .ok (if c = '-' then -(n : Int) else (n : Int)) := by
  simp only [Atoi, if_pos h]

theorem Atoi_cons_slow (c : Char) (cs : List Char)
    (h : ¬ (0 < byteLen (c :: cs) ∧ byteLen (c :: cs) < 19)) :
    Atoi (c :: cs) =
      match ParseUint (if c = '-' ∨ c = '+' then cs else c :: cs) with
      | .error e => .error e
      | .ok un =>
        if ¬ c = '-' ∧ 2 ^ 63 ≤ un then .error .errRange
        else if c = '-' ∧ 2 ^ 63 < un then .error .errRange
        else .ok (if c = '-' then -(un : Int) else (un : Int)) := by
  have hbody : (if c = '+' ∨ c = '-' then cs else c :: cs)
      = (if c = '-' ∨ c = '+' then cs else c :: cs) := by
    by_cases h1 : c = '-' <;> by_cases h2 : c = '+' <;> simp [h1, h2]
  simp only [Atoi, if_neg h, ParseInt, hbody]

/-- On a decimal integer within the range of `int`, `Atoi` returns its value. -/
theorem Atoi_decimal (s : List Char) (m : Int) (h : decimalInteger? s = some m)
    (hlo : -2 ^ 63 ≤ m) (hhi : m < 2 ^ 63) : Atoi s = .ok m := by
  cases s with
  | nil => simp [decimalInteger?] at h
  | cons c cs =>
    rw [decimalInteger?_cons] at h
    by_cases hfast : 0 < byteLen (c :: cs) ∧ byteLen (c :: cs) < 19
    · rw [Atoi_cons_fast c cs hfast]
      generalize (if c = '-' ∨ c = '+' then cs else c :: cs) = ds at h ⊢
      by_cases hds : ds ≠ [] ∧ ds.all isDecimalDigit = true
      · rw [if_pos hds] at h
        have hlen : ¬ ds.length < 1 := by
          have := List.length_pos_of_ne_nil hds.1
          omega
        simp only [if_neg hlen, atoiFastLoop_digits ds 0 hds.2]
        exact congrArg Except.ok (Option.some.inj h)
      · rw [if_neg hds] at h
        exact absurd h (by simp)
    · rw [Atoi_cons_slow c cs hfast]
      generalize (if c = '-' ∨ c = '+' then cs else c :: cs) = ds at h ⊢
      by_cases hds : ds ≠ [] ∧ ds.all isDecimalDigit = true
      · rw [if_pos hds] at h
        have h := Option.some.inj h
        have hv : digitsValue ds ≤ maxUint64 := by
          simp only [maxUint64]
          split at h <;> omega
        simp only [ParseUint_digits ds hds.1 hds.2 hv]
        by_cases hc : c = '-'
        · simp only [hc, if_true] at h ⊢
          have h2 : ¬ (2 ^ 63 < digitsValue ds) := by omega
          simp only [true_and, if_neg h2, not_true_eq_false, false_and, if_false, h]
        · simp only [hc, if_false] at h ⊢
          have h2 : ¬ (2 ^ 63 ≤ digitsValue ds) := by omega
          simp only [not_false_eq_true, true_and, if_neg h2, false_and, if_false, h]
      · rw [if_neg hds] at h
        exact absurd h (by simp)

/-- On a text that is not a decimal integer, `Atoi` returns an error. -/
theorem Atoi_not_decimal (s : List Char) (h : decimalInteger? s = none) :
    ∃ e, Atoi s = .error e := by
  cases s with
  | nil => exact ⟨.errSyntax, by decide⟩
  | cons c cs =>
    rw [decimalInteger?_cons] at h
    by_cases hfast : 0 < byteLen (c :: cs) ∧ byteLen (c :: cs) < 19
    · rw [Atoi_cons_fast c cs hfast]
      generalize (if c = '-' ∨ c = '+' then cs else c :: cs) = ds at h ⊢
      by_cases hds : ds ≠ [] ∧ ds.all isDecimalDigit = true
      · rw [if_pos hds] at h
        exact absurd h (by simp)
      · by_cases hne : ds = []
        · exact ⟨.errSyntax, by simp [hne]⟩
        · have hall : ¬ ds.all isDecimalDigit = true := fun hd => hds ⟨hne, hd⟩
          have hlen : ¬ ds.length < 1 := by
            have := List.length_pos_of_ne_nil hne
            omega
          exact ⟨.errSyntax, by simp only [if_neg hlen, atoiFastLoop_not_digits ds 0 hall]⟩
    · rw [Atoi_cons_slow c cs hfast]
      generalize (if c = '-' ∨ c = '+' then cs else c :: cs) = ds at h ⊢
      by_cases hds : ds ≠ [] ∧ ds.all isDecimalDigit = true
      · rw [if_pos hds] at h
        exact absurd h (by simp)
      · obtain ⟨e, he⟩ := ParseUint_not_digits ds hds
        exact ⟨e, by simp only [he]⟩

theorem digitChar_spec (d : Nat) (h : d < 10) :
    isDecimalDigit (digitChar d) = true ∧ (digitChar d).toNat - 48 = d := by
  interval_cases d <;> exact ⟨by decide, by decide⟩

theorem natDigits_acc (fuel n : Nat) (acc : List Char) :
    natDigits fuel n acc = natDigits fuel n [] ++ acc := by
  induction fuel generalizing n acc with
  | zero => rfl
  | succ fuel ih =>
    simp only [natDigits]
    split
    · rfl
    · rw [ih (n / 10) (digitChar (n % 10) :: acc), ih (n / 10) [digitChar (n % 10)]]
      simp

theorem natDigits_spec (fuel n : Nat) (h : n < fuel) :
    natDigits fuel n [] ≠ [] ∧ (natDigits fuel n []).all isDecimalDigit = true ∧
      digitsValue (natDigits fuel n []) = n := by
  induction fuel generalizing n with
  | zero => omega
  | succ fuel ih =>
    simp only [natDigits]
    split
    · rename_i h10
      have hd := digitChar_spec n h10
      refine ⟨by simp, by simp [hd.1], ?_⟩
      simp [digitsValue, hd.2]
    · have hd := digitChar_spec (n % 10) (Nat.mod_lt _ (by omega))
      obtain ⟨_, h2, h3⟩ := ih (n / 10) (by omega)
      rw [natDigits_acc]
      refine ⟨by simp, ?_, ?_⟩
      · rw [List.all_append, h2]
        simp [hd.1]
      · have : digitsValue (natDigits fuel (n / 10) [] ++ [digitChar (n % 10)])
            = digitsValue (natDigits fuel (n / 10) []) * 10 + ((digitChar (n % 10)).toNat - 48) := by
          simp [digitsValue, List.foldl_append]
        rw [this, h3, hd.2]
        omega

/-- The decimal text of `n` is a non-empty string of digits denoting `n`. -/
theorem fmtNat_spec (n : Nat) :
    fmtNat n ≠ [] ∧ (fmtNat n).all isDecimalDigit = true ∧ digitsValue (fmtNat n) = n :=
  natDigits_spec (n + 1) n (by omega)

theorem isDecimalDigit_not_sign {c : Char} (h : isDecimalDigit c = true) :
    ¬ (c = '-' ∨ c = '+') := by
  rintro (rfl | rfl) <;> exact absurd h (by decide)

/-- Reading back the decimal text of a natural number. -/
theorem decimalInteger?_fmtNat (n : Nat) : decimalInteger? (fmtNat n) = some (n : Int) := by
  obtain ⟨hne, hall, hval⟩ := fmtNat_spec n
  cases hf : fmtNat n with
  | nil => exact absurd hf hne
  | cons c cs =>
    rw [hf] at hall hval
    have hc : isDecimalDigit c = true := by
      simp only [List.all_cons, Bool.and_eq_true] at hall
      exact hall.1
    have hsign := isDecimalDigit_not_sign hc
    have hminus : ¬ c = '-' := fun h => hsign (Or.inl h)
    rw [decimalInteger?_cons]
    simp only [if_neg hsign, if_neg hminus]
    rw [if_pos ⟨by simp, hall⟩, hval]

/-- Reading back the text `%d` prints for an integer. -/
theorem decimalInteger?_fmtInt (i : Int) : decimalInteger? (fmtInt i) = some i := by
  unfold fmtInt
  split
  · rename_i hneg
    obtain ⟨hne, hall, hval⟩ := fmtNat_spec i.natAbs
    rw [decimalInteger?_cons]
    simp only [true_or, if_true]
    rw [if_pos ⟨hne, hall⟩, hval]
    congr 1
    omega
  · rename_i hpos
    rw [decimalInteger?_fmtNat]
    congr 1
    omega

theorem fmtInt_injective {i j : Int} (h : fmtInt i = fmtInt j) : i = j := by
  have hi := decimalInteger?_fmtInt i
  rw [h, decimalInteger?_fmtInt j] at hi
  exact (Option.some.inj hi).symm

theorem isSpace_of_digit {c : Char} (h : isDecimalDigit c = true) : isSpace c = false := by
  simp only [isDecimalDigit, decide_eq_true_eq] at h
  simp only [isSpace, Bool.or_eq_false_iff, Bool.and_eq_false_iff, decide_eq_false_iff_not,
    beq_eq_false_iff_ne, ne_eq]
  omega

theorem dropWhile_all {p : Char → Bool} (pre l : List Char) (h : ∀ c ∈ pre, p c = true) :
    (pre ++ l).dropWhile p = l.dropWhile p := by
  induction pre with
  | nil => rfl
  | cons c cs ih =>
    have hc : p c = true := h c (by simp)
    simp only [List.cons_append, List.dropWhile_cons, hc, if_true]
    exact ih (fun x hx => h x (by simp [hx]))

/-- The function `TrimSpace` removes surrounding white space from a text that starts and
ends with a character that is not a space. -/
theorem TrimSpace_surrounded (pre body post : List Char)
    (hpre : ∀ c ∈ pre, isSpace c = true) (hpost : ∀ c ∈ post, isSpace c = true)
    (hhead : ∀ c ∈ body.head?, isSpace c = false)
    (hlast : ∀ c ∈ body.getLast?, isSpace c = false) :
    TrimSpace (pre ++ body ++ post) = body := by
  unfold TrimSpace
  rw [List.append_assoc, dropWhile_all pre _ hpre]
  cases body with
  | nil =>
    have h1 : ([] ++ post).dropWhile isSpace = [] := by
      have := dropWhile_all post [] hpost
      simpa using this
    rw [h1]
    rfl
  | cons b bs =>
    have hb : isSpace b = false := hhead b (by simp)
    have h1 : (b :: bs ++ post).dropWhile isSpace = b :: bs ++ post := by
      simp [List.dropWhile_cons, hb]
    rw [h1, List.reverse_append,
      dropWhile_all post.reverse _ (fun c hc => hpost c (List.mem_reverse.mp hc))]
    have h2 : ((b :: bs).reverse).dropWhile isSpace = (b :: bs).reverse := by
      cases hr : (b :: bs).reverse with
      | nil => rfl
      | cons r rs =>
        have hmem : r ∈ (b :: bs).getLast? := by
          rw [List.getLast?_eq_head?_reverse, hr]
          simp
        have := hlast r hmem
        simp [List.dropWhile_cons, this]
    rw [h2, List.reverse_reverse]

/-- The result of `SplitX` always has a first piece, `s[0]`. -/
theorem SplitX_ne_nil (s : List Char) : SplitX s ≠ [] := by
  cases s with
  | nil => simp [SplitX]
  | cons c cs =>
    simp only [SplitX]
    split
    · simp
    · split <;> simp

theorem SplitX_no_x (s : List Char) (h : ∀ c ∈ s, c ≠ 'x') : SplitX s = [s] := by
  induction s with
  | nil => rfl
  | cons c cs ih =>
    have hc : c ≠ 'x' := h c (by simp)
    simp only [SplitX, if_neg hc, ih (fun x hx => h x (by simp [hx]))]

theorem SplitX_append (a b : List Char) (h : ∀ c ∈ a, c ≠ 'x') :
    SplitX (a ++ 'x' :: b) = a :: SplitX b := by
  induction a with
  | nil => simp [SplitX]
  | cons c cs ih =>
    have hc : c ≠ 'x' := h c (by simp)
    have ih2 := ih (fun x hx => h x (by simp [hx]))
    show SplitX (c :: (cs ++ 'x' :: b)) = (c :: cs) :: SplitX b
    simp only [SplitX, if_neg hc, ih2]

theorem digit_ne_x {c : Char} (h : isDecimalDigit c = true) : c ≠ 'x' := by
  rintro rfl
  exact absurd h (by decide)

theorem Atoi_nonneg (s : List Char) (m : Int) (h : Atoi s = .ok m)
    (hsign : s.head? ≠ some '-') : 0 ≤ m := by
  cases s with
  | nil =>
    have h0 : Atoi [] = .error .errSyntax := by decide
    rw [h0] at h
    exact absurd h (by simp)
  | cons c cs =>
    have hc : ¬ c = '-' := fun hc => hsign (by simp [hc])
    by_cases hfast : 0 < byteLen (c :: cs) ∧ byteLen (c :: cs) < 19
    · rw [Atoi_cons_fast c cs hfast] at h
      generalize (if c = '-' ∨ c = '+' then cs else c :: cs) = ds at h
      split at h
      · exact absurd h (by simp)
      · split at h
        · exact absurd h (by simp)
        · simp only [if_neg hc, Except.ok.injEq] at h
          omega
    · rw [Atoi_cons_slow c cs hfast] at h
      generalize (if c = '-' ∨ c = '+' then cs else c :: cs) = ds at h
      split at h
      · exact absurd h (by simp)
      · simp only [if_neg hc, hc, false_and, if_false] at h
        split at h
        · exact absurd h (by simp)
        · simp only [Except.ok.injEq] at h
          omega

/-! ## Lemmas on binary32 arithmetic -/

namespace F32

theorem round_sign (neg : Bool) (n d : Nat) :
    round neg n d = inf neg ∨ ∃ k E, round neg n d = fin neg k E := by
  unfold round pack
  split
  · exact Or.inr ⟨_, _, rfl⟩
  · split
    · split
      · exact Or.inl rfl
      · exact Or.inr ⟨_, _, rfl⟩
    · split
      · exact Or.inl rfl
      · exact Or.inr ⟨_, _, rfl⟩

theorem ofInt_thousand : ofInt 1000 = fin false 16384000 (-14) := by decide

theorem le_zero_fin (k : Nat) (E : Int) : le zero (fin false k E) := by
  show toRat (fin false 0 (-149)) ≤ toRat (fin false k E)
  have h2 : (0 : ℚ) < 2 ^ E := by positivity
  simp only [toRat, Nat.cast_zero, mul_zero, zero_mul]
  have hk : (0 : ℚ) ≤ (k : ℚ) := Nat.cast_nonneg k
  simpa using mul_nonneg hk h2.le

theorem le_zero_round (n d : Nat) : le zero (round false n d) := by
  rcases round_sign false n d with h | ⟨k, E, h⟩
  · rw [h]
    trivial
  · rw [h]
    exact le_zero_fin k E

theorem two_zpow_pos (E : Int) : (0 : ℚ) < 2 ^ E := by positivity

theorem two_zpow_of_nonneg {E : Int} (h : 0 ≤ E) : (2 : ℚ) ^ E = ((2 ^ E.toNat : Nat) : ℚ) := by
  have hE : ((E.toNat : Nat) : Int) = E := Int.toNat_of_nonneg h
  rw [Nat.cast_pow, Nat.cast_ofNat, ← zpow_natCast, hE]

theorem two_zpow_of_nonpos {E : Int} (h : E ≤ 0) :
    (2 : ℚ) ^ E * ((2 ^ (-E).toNat : Nat) : ℚ) = 1 := by
  have hE : (((-E).toNat : Nat) : Int) = -E := Int.toNat_of_nonneg (by omega)
  rw [Nat.cast_pow, Nat.cast_ofNat, ← zpow_natCast, hE, ← zpow_add₀ (by norm_num)]
  simp

theorem log2Aux_spec (fuel n : Nat) (hn : 0 < n) (hf : n ≤ fuel) :
    2 ^ log2Aux fuel n ≤ n ∧ n < 2 ^ (log2Aux fuel n + 1) := by
  induction fuel generalizing n with
  | zero => omega
  | succ fuel ih =>
    simp only [log2Aux]
    split
    · simp only [pow_zero, zero_add, pow_one]
      omega
    · obtain ⟨h1, h2⟩ := ih (n / 2) (by omega) (by omega)
      rw [pow_succ] at h2 ⊢
      rw [pow_succ (n := log2Aux fuel (n / 2) + 1), pow_succ]
      omega

theorem log2_spec (n : Nat) (hn : 0 < n) : 2 ^ log2 n ≤ n ∧ n < 2 ^ (log2 n + 1) :=
  log2Aux_spec n n hn (le_refl n)

/-- The binade of `n / d`: `2^l ≤ n / d < 2^(l+1)` for `l = ilog2 n d`. -/
theorem ilog2_spec (n d : Nat) (hn : 0 < n) (hd : 0 < d) :
    (d : ℚ) * 2 ^ (ilog2 n d) ≤ n ∧ (n : ℚ) < d * 2 ^ (ilog2 n d + 1) := by
  obtain ⟨hp1, hp2⟩ := log2_spec n hn
  obtain ⟨hq1, hq2⟩ := log2_spec d hd
  have hP : (0 : ℚ) < 2 ^ log2 n := by positivity
  have hQ : (0 : ℚ) < 2 ^ log2 d := by positivity
  have hp1q : ((2 : ℚ) ^ log2 n) ≤ n := by exact_mod_cast hp1
  have hp2q : (n : ℚ) < 2 * (2 : ℚ) ^ log2 n := by
    have : (n : ℚ) < ((2 ^ (log2 n + 1) : Nat) : ℚ) := by exact_mod_cast hp2
    rw [pow_succ] at this
    push_cast at this
    linarith
  have hq1q : ((2 : ℚ) ^ log2 d) ≤ d := by exact_mod_cast hq1
  have hq2q : (d : ℚ) < 2 * (2 : ℚ) ^ log2 d := by
    have : (d : ℚ) < ((2 ^ (log2 d + 1) : Nat) : ℚ) := by exact_mod_cast hq2
    rw [pow_succ] at this
    push_cast at this
    linarith
  have hnq : (0 : ℚ) < n := by exact_mod_cast hn
  have hdq : (0 : ℚ) < d := by exact_mod_cast hd
  have hsub : (2 : ℚ) ^ ((log2 n : Int) - (log2 d : Int)) = 2 ^ log2 n / 2 ^ log2 d := by
    rw [zpow_sub₀ (by norm_num), zpow_natCast, zpow_natCast]
  unfold ilog2
  simp only []
  split
  · rename_i hc
    have hcq : (d : ℚ) * 2 ^ log2 n ≤ n * 2 ^ log2 d := by exact_mod_cast hc
    rw [zpow_add₀ (by norm_num), hsub, zpow_one]
    constructor
    · rw [mul_div_assoc', div_le_iff₀ hQ]
      exact hcq
    · rw [div_mul_eq_mul_div, mul_div_assoc', lt_div_iff₀ hQ]
      nlinarith
  · rename_i hc
    have hcq : (n : ℚ) * 2 ^ log2 d < d * 2 ^ log2 n := by
      have : n * 2 ^ log2 d < d * 2 ^ log2 n := by omega
      exact_mod_cast this
    have h1 : (2 : ℚ) ^ ((log2 n : Int) - (log2 d : Int) - 1 + 1) = 2 ^ log2 n / 2 ^ log2 d := by
      rw [sub_add_cancel, hsub]
    have h2 : (2 : ℚ) ^ ((log2 n : Int) - (log2 d : Int) - 1)
        = 2 ^ log2 n / 2 ^ log2 d / 2 := by
      rw [zpow_sub₀ (by norm_num), hsub, zpow_one]
    rw [h1, h2]
    constructor
    · rw [mul_div_assoc', mul_div_assoc', div_le_iff₀ (by norm_num), div_le_iff₀ hQ]
      nlinarith
    · rw [mul_div_assoc', lt_div_iff₀ hQ]
      exact hcq

theorem roundHalfEven_le (n d c : Nat) (hd : 0 < d) (h : n ≤ c * d) :
    roundHalfEven n d ≤ c := by
  have hq : n / d ≤ c := Nat.div_le_of_le_mul (by rwa [Nat.mul_comm] at h)
  have hdm := Nat.div_add_mod n d
  unfold roundHalfEven
  simp only []
  by_cases hlt : n / d < c
  · split
    · omega
    · split
      · omega
      · split <;> omega
  · have hqc : n / d = c := by omega
    have hr : n % d = 0 := by
      rw [hqc, Nat.mul_comm] at hdm
      omega
    rw [hr, hqc]
    simp [hd]

/-- The significand of a rounded magnitude has at most 24 bits, or is
`2^24`. -/
theorem significand_le (n d : Nat) (hn : 0 < n) (hd : 0 < d) :
    significand n d (ulpExp n d) ≤ 2 ^ 24 := by
  obtain ⟨_, hup⟩ := ilog2_spec n d hn hd
  have hE : ilog2 n d - 23 ≤ ulpExp n d := le_max_left _ _
  have hX := two_zpow_pos (ulpExp n d)
  have hdq : (0 : ℚ) < d := by exact_mod_cast hd
  have hpow : (2 : ℚ) ^ (ilog2 n d + 1) ≤ 2 ^ (ulpExp n d) * 2 ^ (24 : Nat) := by
    rw [← zpow_natCast, ← zpow_add₀ (by norm_num)]
    exact zpow_le_zpow_right₀ (by norm_num) (by push_cast; omega)
  have hstar : (n : ℚ) < d * (2 ^ (ulpExp n d) * 2 ^ (24 : Nat)) :=
    lt_of_lt_of_le hup (mul_le_mul_of_nonneg_left hpow hdq.le)
  unfold significand
  split
  · rename_i h0
    apply roundHalfEven_le _ _ _ (by positivity)
    rw [two_zpow_of_nonneg h0] at hstar
    have : n < d * (2 ^ (ulpExp n d).toNat * 2 ^ 24) := by exact_mod_cast hstar
    nlinarith
  · rename_i h0
    apply roundHalfEven_le _ _ _ hd
    have hinv := two_zpow_of_nonpos (E := ulpExp n d) (by omega)
    have hY : (0 : ℚ) < ((2 ^ (-ulpExp n d).toNat : Nat) : ℚ) := by positivity
    have : (n : ℚ) * ((2 ^ (-ulpExp n d).toNat : Nat) : ℚ) < 2 ^ (24 : Nat) * d := by
      have h1 := mul_lt_mul_of_pos_right hstar hY
      have h2 : (d : ℚ) * (2 ^ (ulpExp n d) * 2 ^ (24 : Nat)) *
          ((2 ^ (-ulpExp n d).toNat : Nat) : ℚ) = 2 ^ (24 : Nat) * d := by
        calc (d : ℚ) * (2 ^ (ulpExp n d) * 2 ^ (24 : Nat)) * ((2 ^ (-ulpExp n d).toNat : Nat) : ℚ)
            = d * 2 ^ (24 : Nat) * (2 ^ (ulpExp n d) * ((2 ^ (-ulpExp n d).toNat : Nat) : ℚ)) := by
              ring
          _ = 2 ^ (24 : Nat) * d := by rw [hinv]; ring
      rwa [h2] at h1
    have h3 : n * 2 ^ (-ulpExp n d).toNat < 2 ^ 24 * d := by exact_mod_cast this
    omega

theorem pack_representable (neg : Bool) (k : Nat) (E : Int) (hk : k ≤ 2 ^ 24)
    (hE : -149 ≤ E) : Representable (pack neg k E) := by
  unfold pack
  split
  · split
    · trivial
    · exact ⟨by norm_num, by omega, by omega⟩
  · split
    · trivial
    · exact ⟨by omega, hE, by omega⟩

/-- Rounding gives a value a binary32 can hold. -/
theorem round_representable (neg : Bool) (n d : Nat) (hd : 0 < d) :
    Representable (round neg n d) := by
  unfold round
  split
  · exact ⟨by norm_num, by norm_num, by norm_num⟩
  · exact pack_representable neg _ _ (significand_le n d (by omega) hd) (le_max_right _ _)

theorem div_representable (x y : F32) : Representable (div x y) := by
  cases x with
  | nan => cases y <;> trivial
  | inf s => cases y <;> trivial
  | fin s m e =>
    cases y with
    | nan => trivial
    | inf t => exact ⟨by norm_num, by norm_num, by norm_num⟩
    | fin t n f =>
      simp only [div]
      split
      · split <;> trivial
      · split
        · exact round_representable _ _ _ (by omega)
        · exact round_representable _ _ _ (by positivity)

theorem toInt_fin_small (neg : Bool) (m : Nat) (e : Int) (he : e < 0)
    (hm : m < 2 ^ (-e).toNat) : toInt (fin neg m e) = 0 := by
  have h0 : ¬ (0 ≤ e) := by omega
  simp only [toInt, if_neg h0, Nat.div_eq_of_lt hm]
  cases neg <;> simp

/-- A quotient of at most `1 - 2^-24` rounds to a value below one, which
converts to the integer 0. -/
theorem toInt_round_small (neg : Bool) (n d : Nat) (hd : 0 < d)
    (h : 2 ^ 24 * n ≤ (2 ^ 24 - 1) * d) : toInt (round neg n d) = 0 := by
  by_cases hn : n = 0
  · subst hn
    cases neg <;> rfl
  · have hn0 : 0 < n := Nat.pos_of_ne_zero hn
    obtain ⟨hlo, _⟩ := ilog2_spec n d hn0 hd
    have hnd : n < d := by omega
    have hl : ilog2 n d ≤ -1 := by
      by_contra hc
      have h1 : (1 : ℚ) ≤ 2 ^ (ilog2 n d) := one_le_zpow₀ (by norm_num) (by omega)
      have hdq : (0 : ℚ) < d := by exact_mod_cast hd
      have h2 : (d : ℚ) ≤ n := le_trans (by nlinarith) hlo
      have h3 : d ≤ n := by exact_mod_cast h2
      omega
    have hE1 : ulpExp n d ≤ -24 := max_le (by omega) (by norm_num)
    have hE2 : -149 ≤ ulpExp n d := le_max_right _ _
    obtain ⟨u, hu⟩ : ∃ u : Nat, (-ulpExp n d).toNat = 24 + u :=
      ⟨(-ulpExp n d).toNat - 24, by omega⟩
    have hsig : significand n d (ulpExp n d) = roundHalfEven (n * 2 ^ (24 + u)) d := by
      unfold significand
      rw [if_neg (by omega), hu]
    have hk : roundHalfEven (n * 2 ^ (24 + u)) d ≤ (2 ^ 24 - 1) * 2 ^ u := by
      apply roundHalfEven_le _ _ _ hd
      rw [pow_add]
      have hu0 : 0 < 2 ^ u := by positivity
      nlinarith
    unfold round
    rw [if_neg hn, hsig]
    generalize roundHalfEven (n * 2 ^ (24 + u)) d = k at hk
    generalize ulpExp n d = E at hE1 hE2 hu
    have hpow : (2 : Nat) ^ (24 + u) = 2 ^ 24 * 2 ^ u := pow_add 2 24 u
    have hu0 : 0 < 2 ^ u := by positivity
    unfold pack
    split
    · rename_i hk24
      have hu1 : 1 ≤ u := by
        by_contra hc
        have : u = 0 := by omega
        subst this
        simp only [pow_zero, mul_one] at hk
        omega
      rw [if_neg (by omega)]
      apply toInt_fin_small _ _ _ (by omega)
      have hexp : (-(E + 1)).toNat = 23 + u := by omega
      rw [hexp]
      exact Nat.pow_lt_pow_right (by norm_num) (by omega)
    · rw [if_neg (by omega)]
      apply toInt_fin_small _ _ _ (by omega)
      rw [hu, hpow]
      omega

theorem pos_of_lt_zero {t : Bool} {n : Nat} {f : Int} (h : lt zero (fin t n f)) :
    t = false ∧ 0 < n := by
  have h : toRat (fin false 0 (-149)) < toRat (fin t n f) := h
  have hf := two_zpow_pos f
  have hn : (0 : ℚ) ≤ n := Nat.cast_nonneg n
  simp only [toRat, Nat.cast_zero, mul_zero, zero_mul] at h
  cases t with
  | true =>
    simp only [if_true] at h
    have : (0 : ℚ) ≤ n * 2 ^ f := mul_nonneg hn hf.le
    linarith
  | false =>
    refine ⟨rfl, ?_⟩
    by_contra hc
    have : n = 0 := by omega
    subst this
    simp at h

theorem nonneg_of_le_zero {s : Bool} {m : Nat} {e : Int} (h : le zero (fin s m e)) :
    s = false ∨ m = 0 := by
  have h : toRat (fin false 0 (-149)) ≤ toRat (fin s m e) := h
  have he := two_zpow_pos e
  simp only [toRat, Nat.cast_zero, mul_zero, zero_mul] at h
  cases s with
  | false => exact Or.inl rfl
  | true =>
    right
    by_contra hc
    have hm : (0 : ℚ) < m := by exact_mod_cast Nat.pos_of_ne_zero hc
    simp only [if_true] at h
    have : (0 : ℚ) < m * 2 ^ e := mul_pos hm he
    linarith

/-- On a finite value that is not negative and below `2^63`, the conversion
to `int` is the floor of the value. -/
theorem toInt_eq_floor (s : Bool) (m : Nat) (e : Int) (hs : s = false ∨ m = 0)
    (hlt : toRat (fin s m e) < 2 ^ 63) :
    toInt (fin s m e) = ((⌊toRat (fin s m e)⌋₊ : Nat) : Int) := by
  have hval : toRat (fin s m e) = (m : ℚ) * 2 ^ e := by
    rcases hs with rfl | rfl
    · simp [toRat]
    · simp [toRat]
  have hfloor : ⌊(m : ℚ) * 2 ^ e⌋₊ = if 0 ≤ e then m * 2 ^ e.toNat else m / 2 ^ (-e).toNat := by
    split
    · rename_i h0
      rw [two_zpow_of_nonneg h0, ← Nat.cast_mul, Nat.floor_natCast]
    · rename_i h0
      have hinv := two_zpow_of_nonpos (E := e) (by omega)
      have hY : (0 : ℚ) < ((2 ^ (-e).toNat : Nat) : ℚ) := by positivity
      have : (m : ℚ) * 2 ^ e = (m : ℚ) / ((2 ^ (-e).toNat : Nat) : ℚ) := by
        rw [eq_div_iff hY.ne', mul_assoc, hinv, mul_one]
      rw [this, Nat.floor_div_eq_div]
  have hle : ((⌊(m : ℚ) * 2 ^ e⌋₊ : Nat) : ℚ) ≤ (m : ℚ) * 2 ^ e :=
    Nat.floor_le (mul_nonneg (Nat.cast_nonneg m) (two_zpow_pos e).le)
  simp only [toInt]
  rw [hval] at hlt ⊢
  rw [hfloor] at hle ⊢
  generalize (if 0 ≤ e then m * 2 ^ e.toNat else m / 2 ^ (-e).toNat) = t at hle ⊢
  have ht : (t : ℚ) < 2 ^ 63 := lt_of_le_of_lt hle hlt
  have ht2 : t < 2 ^ 63 := by exact_mod_cast ht
  rcases hs with rfl | rfl
  · have hr : -2 ^ 63 ≤ (t : Int) ∧ (t : Int) < 2 ^ 63 := ⟨by omega, by omega⟩
    simp only [Bool.false_eq_true, if_false, if_pos hr]
  · simp only [Nat.cast_zero, zero_mul] at hle
    have h0 : (t : ℚ) = 0 := le_antisymm hle (Nat.cast_nonneg t)
    have h1 : t = 0 := by exact_mod_cast h0
    subst h1
    cases s <;> simp

theorem ofInt_natCast (k : Nat) : ofInt (k : Int) = round false k 1 := by
  have h : decide ((k : Int) < 0) = false := by simp
  simp only [ofInt, h, Int.natAbs_ofNat]

/-- A timestamp `float32(k) * interval` with `k ≥ 0` and a finite
`interval > 0` is `≥ 0`. -/
theorem le_zero_mul_ofInt (k n : Nat) (f : Int) (hn : 0 < n) :
    le zero (mul (ofInt (k : Int)) (fin false n f)) := by
  rw [ofInt_natCast]
  rcases round_sign false k 1 with h | ⟨a, b, h⟩
  · rw [h]
    simp only [mul, if_neg (by omega : ¬ n = 0)]
    trivial
  · rw [h]
    simp only [mul]
    split <;> exact le_zero_round _ _

/-- The quotient of a duration `≥ 0` by an interval `> 0` is a NaN, the
positive infinity, or a finite value that is not negative. -/
theorem div_shape (D iv : F32) (hD : le zero D) (hiv : lt zero iv) :
    div D iv = nan ∨ div D iv = inf false ∨
      ∃ s k E, div D iv = fin s k E ∧ (s = false ∨ k = 0) := by
  cases D with
  | nan => exact absurd hD (by simp [le, zero])
  | inf s =>
    cases s with
    | true => exact absurd hD (by simp [le, zero])
    | false =>
      cases iv with
      | nan => exact Or.inl rfl
      | inf t => exact Or.inl rfl
      | fin t n f =>
        obtain ⟨rfl, _⟩ := pos_of_lt_zero hiv
        exact Or.inr (Or.inl rfl)
  | fin s m e =>
    cases iv with
    | nan => exact Or.inl rfl
    | inf t => exact Or.inr (Or.inr ⟨_, 0, -149, rfl, Or.inr rfl⟩)
    | fin t n f =>
      obtain ⟨rfl, hn⟩ := pos_of_lt_zero hiv
      have hn0 : ¬ n = 0 := by omega
      rcases nonneg_of_le_zero hD with rfl | rfl
      · simp only [div, if_neg hn0, Bool.xor_false]
        split
        · rcases round_sign false (m * 2 ^ (e - f).toNat) n with h | ⟨k, E, h⟩
          · exact Or.inr (Or.inl h)
          · exact Or.inr (Or.inr ⟨_, _, _, h, Or.inl rfl⟩)
        · rcases round_sign false m (n * 2 ^ (f - e).toNat) with h | ⟨k, E, h⟩
          · exact Or.inr (Or.inl h)
          · exact Or.inr (Or.inr ⟨_, _, _, h, Or.inl rfl⟩)
      · simp only [div, if_neg hn0, Bool.xor_false, zero_mul]
        split
        · exact Or.inr (Or.inr ⟨_, 0, -149, rfl, Or.inr rfl⟩)
        · exact Or.inr (Or.inr ⟨_, 0, -149, rfl, Or.inr rfl⟩)

/-- Between two binary32 values `0 < D < interval` the quotient is at most
`1 - 2^-24`, and converts to the integer 0. -/
theorem toInt_div_lt (m n : Nat) (e f : Int) (hm : m < 2 ^ 24) (hn : n < 2 ^ 24)
    (hlt : lt (fin false m e) (fin false n f)) :
    toInt (div (fin false m e) (fin false n f)) = 0 := by
  have h : toRat (fin false m e) < toRat (fin false n f) := hlt
  simp only [toRat, Bool.false_eq_true, if_false, one_mul] at h
  have he := two_zpow_pos e
  have hf := two_zpow_pos f
  have hn0 : ¬ n = 0 := by
    rintro rfl
    simp only [Nat.cast_zero, zero_mul] at h
    have : (0 : ℚ) ≤ m * 2 ^ e := mul_nonneg (Nat.cast_nonneg m) he.le
    linarith
  simp only [div, if_neg hn0, Bool.xor_false]
  split
  · rename_i hfe
    apply toInt_round_small _ _ _ (by omega)
    have hsplit : (2 : ℚ) ^ e = 2 ^ (e - f) * 2 ^ f := by
      rw [← zpow_add₀ (by norm_num)]
      congr 1
      omega
    rw [hsplit, two_zpow_of_nonneg (by omega : 0 ≤ e - f), ← mul_assoc] at h
    have h2 := lt_of_mul_lt_mul_right h hf.le
    have h3 : m * 2 ^ (e - f).toNat < n := by exact_mod_cast h2
    omega
  · rename_i hfe
    apply toInt_round_small _ _ _ (by positivity)
    have hsplit : (2 : ℚ) ^ f = 2 ^ (f - e) * 2 ^ e := by
      rw [← zpow_add₀ (by norm_num)]
      congr 1
      omega
    rw [hsplit, two_zpow_of_nonneg (by omega : 0 ≤ f - e), ← mul_assoc] at h
    have h2 := lt_of_mul_lt_mul_right h he.le
    have h3 : m < n * 2 ^ (f - e).toNat := by exact_mod_cast h2
    generalize n * 2 ^ (f - e).toNat = d at h3 ⊢
    omega

theorem toInt_nonpos_of_neg (x : F32) (h : x = nan ∨ x = inf true ∨ x = inf false ∨
    ∃ k E, x = fin true k E) : toInt x ≤ 0 := by
  rcases h with rfl | rfl | rfl | ⟨k, E, rfl⟩
  · decide
  · decide
  · decide
  · simp only [toInt, if_true]
    generalize (if 0 ≤ E then k * 2 ^ E.toNat else k / 2 ^ (-E).toNat) = t
    split <;> omega

end F32

/-! ## Lemmas on the loops -/

/-- The calls of the loop are those of an initial run of consecutive
indices. -/
theorem extractLoop_trace (env : Env) (o f : String) (iv : F32) (r i : Nat) :
    ∃ len, len ≤ r ∧
      (extractLoop env o f iv r i).1 = (List.range' i len).map (frameCallAt o f iv) := by
  induction r generalizing i with
  | zero => exact ⟨0, le_refl _, rfl⟩
  | succ r ih =>
    simp only [extractLoop]
    split
    · exact ⟨1, by omega, rfl⟩
    · obtain ⟨len, hlen, htr⟩ := ih (i + 1)
      refine ⟨len + 1, by omega, ?_⟩
      simp only [htr, List.range'_succ, List.map_cons]
      rfl

/-- When every extraction succeeds the loop runs all its iterations. -/
theorem extractLoop_all_ok (env : Env) (o f : String) (iv : F32) (r i : Nat)
    (hok : ∀ j, j < r →
      ExtractFrame env (i + j) o f ((i + j : Nat) : Int)
        (F32.mul (F32.ofInt ((i + j : Nat) : Int)) iv) = none) :
    extractLoop env o f iv r i = ((List.range' i r).map (frameCallAt o f iv), none) := by
  induction r generalizing i with
  | zero => rfl
  | succ r ih =>
    have h0 := hok 0 (by omega)
    simp only [Nat.add_zero] at h0
    have hrest := ih (i + 1) (fun j hj => by
      have := hok (j + 1) (by omega)
      rwa [show i + (j + 1) = i + 1 + j by omega] at this)
    simp only [extractLoop, h0, hrest, List.range'_succ, List.map_cons]
    rfl

/-- When the extraction first fails `k` iterations from the start, the loop
stops there with the wrapped error. -/
theorem extractLoop_first_failure (env : Env) (o f : String) (iv : F32) (r i k : Nat)
    (e : FrameError) (hk : k < r)
    (hok : ∀ j, j < k →
      ExtractFrame env (i + j) o f ((i + j : Nat) : Int)
        (F32.mul (F32.ofInt ((i + j : Nat) : Int)) iv) = none)
    (hfail : ExtractFrame env (i + k) o f ((i + k : Nat) : Int)
        (F32.mul (F32.ofInt ((i + k : Nat) : Int)) iv) = some e) :
    extractLoop env o f iv r i =
      ((List.range' i (k + 1)).map (frameCallAt o f iv),
       some (.extractFrame f (F32.mul (F32.ofInt ((i + k : Nat) : Int)) iv) e)) := by
  induction k generalizing r i with
  | zero =>
    obtain ⟨r, rfl⟩ : ∃ r', r = r' + 1 := ⟨r - 1, by omega⟩
    simp only [Nat.add_zero] at hfail
    simp only [extractLoop, hfail, Nat.add_zero]
    rfl
  | succ k ih =>
    obtain ⟨r, rfl⟩ : ∃ r', r = r' + 1 := ⟨r - 1, by omega⟩
    have h0 := hok 0 (by omega)
    simp only [Nat.add_zero] at h0
    have hrest := ih r (i + 1) (by omega)
      (fun j hj => by
        have := hok (j + 1) (by omega)
        rwa [show i + (j + 1) = i + 1 + j by omega] at this)
      (by rwa [show i + (k + 1) = i + 1 + k by omega] at hfail)
    simp only [extractLoop, h0, hrest, List.range'_succ (s := i), List.map_cons]
    rw [show i + 1 + k = i + (k + 1) by omega]
    rfl

/-- When the transcoder run of every descriptor succeeds, the loop of
`ExtractVideoObjects` runs the transcoder once for each descriptor, in
order. -/
theorem objectsLoop_all_ok {σ : Type} (env : Env) (fmtSize : σ → String) (file : String)
    (infos : List (FrameInfo σ)) (i : Nat)
    (hok : ∀ p ∈ infos.enumFrom i,
      env.ffmpeg p.1 (objectArgs fmtSize file p.2 p.1) = none) :
    objectsLoop env fmtSize file (infos.map some) i =
      ((infos.enumFrom i).map (fun p => objectArgs fmtSize file p.2 p.1), .returned) := by
  induction infos generalizing i with
  | nil => rfl
  | cons a as ih =>
    have h0 : env.ffmpeg i (objectArgs fmtSize file a i) = none :=
      hok (i, a) (by simp [List.enumFrom_cons])
    have hrest := ih (i + 1) (fun p hp => hok p (by simp [List.enumFrom_cons, hp]))
    simp only [List.map_cons, objectsLoop, h0, hrest, List.enumFrom_cons]

theorem GetVideoDuration_representable (env : Env) (f : String) (D : F32)
    (hD : GetVideoDuration env f = .ok D) : F32.Representable D := by
  unfold GetVideoDuration at hD
  split at hD
  · exact absurd hD (by simp)
  · split at hD
    · exact absurd hD (by simp)
    · simp only [Except.ok.injEq] at hD
      rw [← hD]
      exact F32.div_representable _ _

/-- With a frame count that is not positive no call is made. -/
theorem ExtractVideoFrames_of_nonpos (env : Env) (o f : String) (iv D : F32)
    (hmk : env.mkdirAll o = none) (hD : GetVideoDuration env f = .ok D)
    (h : F32.toInt (F32.div D iv) ≤ 0) : ExtractVideoFrames env o f iv = ([], none) := by
  simp only [ExtractVideoFrames, hmk, hD]
  split
  · rfl
  · have h0 : (F32.toInt (F32.div D iv)).toNat = 0 := by omega
    rw [h0]
    rfl

/-- The calls of `ExtractVideoFrames` are those for an initial run of frame
indices, all below the frame count. -/
theorem ExtractVideoFrames_trace (env : Env) (o f : String) (iv : F32) :
    ∃ len, (ExtractVideoFrames env o f iv).1 = (List.range len).map (frameCallAt o f iv) ∧
      (len = 0 ∨ ∃ D, GetVideoDuration env f = .ok D ∧
        (len : Int) ≤ F32.toInt (F32.div D iv)) := by
  unfold ExtractVideoFrames
  split
  · exact ⟨0, rfl, Or.inl rfl⟩
  · split
    · exact ⟨0, rfl, Or.inl rfl⟩
    · rename_i D hD
      simp only []
      split
      · exact ⟨0, rfl, Or.inl rfl⟩
      · obtain ⟨len, hlen, htr⟩ := extractLoop_trace env o f iv
          (F32.toInt (F32.div D iv)).toNat 0
        refine ⟨len, by rw [htr, List.range_eq_range'], ?_⟩
        by_cases h0 : len = 0
        · exact Or.inl h0
        · exact Or.inr ⟨D, hD, by omega⟩

theorem outputFile_injective (o : String) (i j : Int) (h : outputFile o i = outputFile o j) :
    i = j := by
  have hd := congrArg String.data h
  simp only [outputFile, String.data_append, List.append_assoc] at hd
  have h1 := List.append_cancel_left (List.append_cancel_left hd)
  exact fmtInt_injective (List.append_cancel_right h1)

/-! ## Properties of the program -/

/-- C3, counterexample: the trimmed probe output `9223372036854775808` is a
decimal integer (2^63), and `GetVideoDuration` returns an error for it, not
a duration. -/
theorem GetVideoDuration_rejects_large_integer :
    decimalInteger? (TrimSpace "9223372036854775808\n".toList) = some (2 ^ 63) ∧
    GetVideoDuration (exampleEnv "9223372036854775808\n" []) "video.mp4"
      = .error (.atoi .errRange) := by
  constructor <;> decide

/-- C3, amended: when the probe succeeds and the white-space-trimmed output is
a decimal integer `m` with `-2^63 ≤ m < 2^63`, `GetVideoDuration` returns,
without error, the `float32` quotient of `float32(m)` by 1000; for the outputs
`2500` and `0` that is exactly 2.5 and 0.  When the trimmed output is not a
decimal integer (non-numeric or empty), the result is an error and not a
duration. -/
theorem GetVideoDuration_parse (env : Env) (fileName output : String)
    (hout : env.mediainfo fileName = .ok output) :
    (∀ m : Int, decimalInteger? (TrimSpace output.toList) = some m →
        -2 ^ 63 ≤ m → m < 2 ^ 63 →
        GetVideoDuration env fileName = .ok (F32.div (F32.ofInt m) (F32.ofInt 1000))) ∧
    (decimalInteger? (TrimSpace output.toList) = none →
        ∃ e, GetVideoDuration env fileName = .error (.atoi e)) ∧
    (output = "2500" →
        ∃ d, GetVideoDuration env fileName = .ok d ∧ d.isFinite = true ∧ d.toRat = 5 / 2) ∧
    (output = "0" →
        ∃ d, GetVideoDuration env fileName = .ok d ∧ d.isFinite = true ∧ d.toRat = 0) := by
  refine ⟨?_, ?_, ?_, ?_⟩
  · intro m hm hlo hhi
    simp only [GetVideoDuration, hout, Atoi_decimal _ m hm hlo hhi]
  · intro hnone
    obtain ⟨e, he⟩ := Atoi_not_decimal _ hnone
    exact ⟨e, by simp only [GetVideoDuration, hout, he]⟩
  · rintro rfl
    refine ⟨.fin false 10485760 (-22), ?_, rfl, ?_⟩
    · simp only [GetVideoDuration, hout]
      decide
    · norm_num [F32.toRat]
  · rintro rfl
    refine ⟨.fin false 0 (-149), ?_, rfl, ?_⟩
    · simp only [GetVideoDuration, hout]
      decide
    · norm_num [F32.toRat]

/-- C3, witness: the probe output ` 1500\n` gives the quotient of 1500 by
1000. -/
theorem GetVideoDuration_parse_witness :
    (exampleEnv " 1500\n" []).mediainfo "video.mp4" = .ok " 1500\n" ∧
    decimalInteger? (TrimSpace " 1500\n".toList) = some 1500 ∧
    GetVideoDuration (exampleEnv " 1500\n" []) "video.mp4"
      = .ok (F32.div (F32.ofInt 1500) (F32.ofInt 1000)) :=
  ⟨rfl, by decide,
    (GetVideoDuration_parse (exampleEnv " 1500\n" []) "video.mp4" " 1500\n" rfl).1 1500
      (by decide) (by decide) (by decide)⟩

/-- C4, failing input: for the probe output `1920`, which has no `x`,
`GetVideoDimensions` does not return an error: it panics on the index `s[1]`
that is out of range. -/
theorem GetVideoDimensions_panics_without_separator :
    GetVideoDimensions (exampleEnv "1920" []) "video.mp4" = .panicIndexOutOfRange := by
  decide

/-- C5, counterexample: for `w = 2^63` and `h = 1080` the probe output is the
decimal text of `w`, an `x` and the decimal text of `h`, and
`GetVideoDimensions` returns a range error, not `(w, h)`. -/
theorem GetVideoDimensions_rejects_large_width :
    String.mk (fmtNat (2 ^ 63) ++ 'x' :: fmtNat 1080) = "9223372036854775808x1080" ∧
    GetVideoDimensions (exampleEnv "9223372036854775808x1080" []) "video.mp4"
      = .error .errRange := by
  constructor <;> decide

/-- C5, amended: for all `w` and `h` with `0 ≤ w, h < 2^63` (the non-negative
values of `int`), when the dimension probe prints the decimal text of `w`, the
character `x` and the decimal text of `h`, optionally surrounded by white
space, `GetVideoDimensions` returns `(w, h)` with no error. -/
theorem GetVideoDimensions_decimal (env : Env) (inputVideo : String) (w h : Nat)
    (pre post : List Char)
    (hpre : ∀ c ∈ pre, isSpace c = true) (hpost : ∀ c ∈ post, isSpace c = true)
    (hw : w < 2 ^ 63) (hh : h < 2 ^ 63)
    (hout : env.ffprobe inputVideo
      = .ok (String.mk (pre ++ (fmtNat w ++ 'x' :: fmtNat h) ++ post))) :
    GetVideoDimensions env inputVideo = .ok (w : Int) (h : Int) := by
  obtain ⟨hwne, hwall, _⟩ := fmtNat_spec w
  obtain ⟨hhne, hhall, _⟩ := fmtNat_spec h
  have hwd : ∀ c ∈ fmtNat w, isDecimalDigit c = true := by
    simpa [List.all_eq_true] using hwall
  have hhd : ∀ c ∈ fmtNat h, isDecimalDigit c = true := by
    simpa [List.all_eq_true] using hhall
  have hhead : ∀ c ∈ (fmtNat w ++ 'x' :: fmtNat h).head?, isSpace c = false := by
    intro c hc
    cases hf : fmtNat w with
    | nil => exact absurd hf hwne
    | cons a as =>
      rw [hf] at hc
      simp only [List.cons_append, List.head?_cons, Option.mem_def, Option.some.injEq] at hc
      exact isSpace_of_digit (hwd c (by rw [hf, ← hc]; simp))
  have hlast : ∀ c ∈ (fmtNat w ++ 'x' :: fmtNat h).getLast?, isSpace c = false := by
    intro c hc
    have hmem : c ∈ fmtNat h := by
      rw [List.getLast?_append_of_ne_nil _ (by simp)] at hc
      cases hf : fmtNat h with
      | nil => exact absurd hf hhne
      | cons a as =>
        rw [hf, List.getLast?_cons_cons] at hc
        exact List.mem_of_mem_getLast? hc
    exact isSpace_of_digit (hhd c hmem)
  have htrim := TrimSpace_surrounded pre (fmtNat w ++ 'x' :: fmtNat h) post hpre hpost hhead hlast
  have hsplit : SplitX (fmtNat w ++ 'x' :: fmtNat h) = [fmtNat w, fmtNat h] := by
    rw [SplitX_append _ _ (fun c hc => digit_ne_x (hwd c hc)),
      SplitX_no_x _ (fun c hc => digit_ne_x (hhd c hc))]
  have hAw : Atoi (fmtNat w) = .ok (w : Int) :=
    Atoi_decimal _ _ (decimalInteger?_fmtNat w) (by omega) (by omega)
  have hAh : Atoi (fmtNat h) = .ok (h : Int) :=
    Atoi_decimal _ _ (decimalInteger?_fmtNat h) (by omega) (by omega)
  simp only [GetVideoDimensions, hout, String.toList, htrim, hsplit, hAw, hAh]

/-- C5, witness: the probe output ` 1920x1080\n`. -/
theorem GetVideoDimensions_decimal_witness :
    (1920 : Nat) < 2 ^ 63 ∧ (1080 : Nat) < 2 ^ 63 ∧
    GetVideoDimensions (exampleEnv " 1920x1080\n" []) "video.mp4" = .ok 1920 1080 :=
  ⟨by decide, by decide,
    GetVideoDimensions_decimal (exampleEnv " 1920x1080\n" []) "video.mp4" 1920 1080
      [' '] ['\n'] (by decide) (by decide) (by decide) (by decide) (by decide)⟩

/-- C6, failing input: for the output directory `out`, given without a
trailing separator, the file `ExtractFrame` passes to the transcoder for frame
0 is `outframe_0.jpg`, next to the directory, and not `out/frame_0.jpg`. -/
theorem ExtractFrame_output_file_outside_directory :
    ∀ (env : Env) (t : F32),
      (frameArgs env "out" "video.mp4" 0 t).getLast? = some "outframe_0.jpg" ∧
      outputFile "out" 0 ≠ "out/frame_0.jpg" := by
  intro env t
  have h : outputFile "out" 0 = "outframe_0.jpg" := by decide
  exact ⟨by simp [frameArgs, h], by decide⟩

/-- C2: when the directory is created, the probe gives `D`, the loop reaches
index `k` (`k` is below the frame count) and `ExtractFrame` succeeds for every
index below `k` and fails with `e` at `k`, `ExtractVideoFrames` returns the
error that wraps `e` together with the input file and the timestamp
`float32(k) * interval`, and the calls of `ExtractFrame` it has made are
exactly those for the indices `0, ..., k`, once each. -/
theorem ExtractVideoFrames_first_failure (env : Env) (outputDir inputFile : String)
    (interval D : F32) (k : Nat) (e : FrameError)
    (hmk : env.mkdirAll outputDir = none)
    (hD : GetVideoDuration env inputFile = .ok D)
    (hk : (k : Int) < F32.toInt (F32.div D interval))
    (hok : ∀ j, j < k →
      ExtractFrame env j outputDir inputFile (j : Int)
        (F32.mul (F32.ofInt (j : Int)) interval) = none)
    (hfail : ExtractFrame env k outputDir inputFile (k : Int)
        (F32.mul (F32.ofInt (k : Int)) interval) = some e) :
    ExtractVideoFrames env outputDir inputFile interval =
      ((List.range (k + 1)).map (frameCallAt outputDir inputFile interval),
       some (.extractFrame inputFile (F32.mul (F32.ofInt (k : Int)) interval) e)) ∧
    (ExtractVideoFrames env outputDir inputFile interval).1.length = k + 1 := by
  have hne : ¬ F32.toInt (F32.div D interval) = 0 := by omega
  have hlt : k < (F32.toInt (F32.div D interval)).toNat := by omega
  have hloop := extractLoop_first_failure env outputDir inputFile interval
    (F32.toInt (F32.div D interval)).toNat 0 k e hlt
    (fun j hj => by simpa using hok j hj) (by simpa using hfail)
  have hrun : ExtractVideoFrames env outputDir inputFile interval =
      ((List.range (k + 1)).map (frameCallAt outputDir inputFile interval),
       some (.extractFrame inputFile (F32.mul (F32.ofInt (k : Int)) interval) e)) := by
    simp only [ExtractVideoFrames, hmk, hD, if_neg hne, hloop, List.range_eq_range', Nat.zero_add]
  exact ⟨hrun, by rw [hrun]; simp⟩

/-- C2, witness: a video of 700 ms sampled every tenth of a second, the
transcoder failing at its run number 2. -/
theorem ExtractVideoFrames_first_failure_witness :
    ((2 : Nat) : Int) < F32.toInt (F32.div (.fin false 11744051 (-24)) oneTenth) ∧
    ExtractVideoFrames (exampleEnv "700" [2]) "out/" "video.mp4" oneTenth =
      ((List.range 3).map (frameCallAt "out/" "video.mp4" oneTenth),
       some (.extractFrame "video.mp4" (F32.mul (F32.ofInt 2) oneTenth)
         (.cmdRun "exit status 1"))) :=
  ⟨by decide,
    (ExtractVideoFrames_first_failure (exampleEnv "700" [2]) "out/" "video.mp4" oneTenth
      (.fin false 11744051 (-24)) 2 (.cmdRun "exit status 1") rfl (by decide) (by decide)
      (by
        intro j hj
        have hj2 : j = 0 ∨ j = 1 := by omega
        rcases hj2 with rfl | rfl <;> rfl)
      rfl).1⟩

/-- C8: for every list of frame descriptors, when the transcoder run made
for each descriptor of the list succeeds (nothing is assumed of any other
run), `ExtractVideoObjects` runs the transcoder exactly once for each
descriptor, in input order; the run for the `j`-th descriptor (`j` counted from
1) seeks to its `TimeFrame`, crops to `crop=` followed by its `BoundingBox`,
and names its output `image_<TimeFrame>_<Size>_<j>.png`; then the function
returns.  For the empty list it makes no run and returns, whatever the
environment. -/
theorem ExtractVideoObjects_all_ok {σ : Type} (env : Env) (fmtSize : σ → String)
    (file : String) (infos : List (FrameInfo σ)) :
    ((∀ p ∈ infos.enum, env.ffmpeg p.1 (objectArgs fmtSize file p.2 p.1) = none) →
      ExtractVideoObjects env fmtSize file (infos.map some) =
        (infos.enum.map (fun p =>
          ["-ss", p.2.TimeFrame, "-i", file, "-frames:v", "1",
           "-filter:v", "crop=" ++ p.2.BoundingBox,
           "image_" ++ p.2.TimeFrame ++ "_" ++ fmtSize p.2.Size ++ "_" ++
             String.mk (fmtNat (p.1 + 1)) ++ ".png"]), .returned) ∧
      (ExtractVideoObjects env fmtSize file (infos.map some)).1.length = infos.length) ∧
    ExtractVideoObjects env fmtSize file ([] : List (Option (FrameInfo σ)))
      = ([], .returned) := by
  refine ⟨fun hok => ?_, rfl⟩
  have hrun := objectsLoop_all_ok env fmtSize file infos 0 hok
  have hfmt : ∀ n : Nat, fmtInt ((n : Int) + 1) = fmtNat (n + 1) := by
    intro n
    have h1 : ¬ ((n : Int) + 1 < 0) := by omega
    have h2 : ((n : Int) + 1).natAbs = n + 1 := by omega
    simp only [fmtInt, if_neg h1, h2]
  have hargs : (fun p : Nat × FrameInfo σ => objectArgs fmtSize file p.2 p.1) =
      (fun p => ["-ss", p.2.TimeFrame, "-i", file, "-frames:v", "1",
           "-filter:v", "crop=" ++ p.2.BoundingBox,
           "image_" ++ p.2.TimeFrame ++ "_" ++ fmtSize p.2.Size ++ "_" ++
             String.mk (fmtNat (p.1 + 1)) ++ ".png"]) := by
    funext p
    simp only [objectArgs, outputImage, hfmt]
  have hfull : ExtractVideoObjects env fmtSize file (infos.map some) =
      ((infos.enum.map (fun p =>
          ["-ss", p.2.TimeFrame, "-i", file, "-frames:v", "1",
           "-filter:v", "crop=" ++ p.2.BoundingBox,
           "image_" ++ p.2.TimeFrame ++ "_" ++ fmtSize p.2.Size ++ "_" ++
             String.mk (fmtNat (p.1 + 1)) ++ ".png"])), .returned) := by
    rw [← hargs]
    exact hrun
  exact ⟨hfull, by rw [hfull]; simp [List.enum]⟩

/-- C8, witness: two descriptors whose runs, numbers 0 and 1, succeed, in an
environment where any other run of the transcoder would fail. -/
theorem ExtractVideoObjects_all_ok_witness :
    (∀ p ∈ ([⟨"00:00:01", 1, "10:20:0:0"⟩, ⟨"00:00:02", 1, "30:40:5:5"⟩] :
        List (FrameInfo Nat)).enum,
      (othersFailEnv "" 2).ffmpeg p.1
        (objectArgs (fun _ : Nat => "1.000000") "video.mp4" p.2 p.1) = none) ∧
    (othersFailEnv "" 2).ffmpeg 0 [] ≠ none ∧
    ExtractVideoObjects (othersFailEnv "" 2) (fun _ : Nat => "1.000000") "video.mp4"
        [some ⟨"00:00:01", 1, "10:20:0:0"⟩, some ⟨"00:00:02", 1, "30:40:5:5"⟩] =
      ([["-ss", "00:00:01", "-i", "video.mp4", "-frames:v", "1", "-filter:v",
          "crop=10:20:0:0", "image_00:00:01_1.000000_1.png"],
        ["-ss", "00:00:02", "-i", "video.mp4", "-frames:v", "1", "-filter:v",
          "crop=30:40:5:5", "image_00:00:02_1.000000_2.png"]], .returned) :=
  have hok : ∀ p ∈ ([⟨"00:00:01", 1, "10:20:0:0"⟩, ⟨"00:00:02", 1, "30:40:5:5"⟩] :
        List (FrameInfo Nat)).enum,
      (othersFailEnv "" 2).ffmpeg p.1
        (objectArgs (fun _ : Nat => "1.000000") "video.mp4" p.2 p.1) = none := by
    intro p hp
    simp only [List.enum, List.enumFrom, List.mem_cons, List.mem_singleton,
      List.not_mem_nil, or_false] at hp
    rcases hp with rfl | rfl <;> rfl
  ⟨hok, by decide,
    ((ExtractVideoObjects_all_ok (othersFailEnv "" 2) (fun _ : Nat => "1.000000") "video.mp4"
      [⟨"00:00:01", 1, "10:20:0:0"⟩, ⟨"00:00:02", 1, "30:40:5:5"⟩]).1 hok).1.trans
      (by decide)⟩

/-- C9, counterexample: for the probe output `-5`, which `GetVideoDuration`
accepts, the duration returned is `-10737418 * 2^-31`, about -0.005, which is
below zero. -/
theorem GetVideoDuration_negative :
    GetVideoDuration (exampleEnv "-5" []) "video.mp4" = .ok (.fin true 10737418 (-31)) ∧
    F32.lt (.fin true 10737418 (-31)) F32.zero := by
  refine ⟨by decide, ?_⟩
  show F32.toRat _ < F32.toRat _
  norm_num [F32.toRat]

/-- C9, amended: every duration that `GetVideoDuration` returns without error
for a probe output whose trimmed text does not begin with a minus sign is
`≥ 0`. -/
theorem GetVideoDuration_nonneg (env : Env) (fileName output : String) (D : F32)
    (hout : env.mediainfo fileName = .ok output)
    (hD : GetVideoDuration env fileName = .ok D)
    (hsign : (TrimSpace output.toList).head? ≠ some '-') : F32.le F32.zero D := by
  simp only [GetVideoDuration, hout] at hD
  split at hD
  · exact absurd hD (by simp)
  · rename_i m hm
    have hm0 := Atoi_nonneg _ m hm hsign
    have hneg : decide (m < 0) = false := by simpa using hm0
    simp only [Except.ok.injEq] at hD
    rw [← hD, F32.ofInt_thousand]
    unfold F32.ofInt
    rw [hneg]
    rcases F32.round_sign false m.natAbs 1 with h | ⟨k, E, h⟩
    · rw [h]
      trivial
    · rw [h]
      simp only [F32.div]
      split
      · exact absurd ‹(16384000 : Nat) = 0› (by decide)
      · split
        · exact F32.le_zero_round _ _
        · exact F32.le_zero_round _ _

/-- C9, witness: the probe output `2500`. -/
theorem GetVideoDuration_nonneg_witness :
    (TrimSpace "2500".toList).head? ≠ some '-' ∧
    F32.le F32.zero (.fin false 10485760 (-22)) :=
  ⟨by decide,
    GetVideoDuration_nonneg (exampleEnv "2500" []) "video.mp4" "2500"
      (.fin false 10485760 (-22)) rfl (by decide) (by decide)⟩

/-- C7: for every `float32` interval `> 0` and every probed duration
`D < interval`, when the output directory can be created and the probe
succeeds, `ExtractVideoFrames` makes no call of `ExtractFrame` and returns
success. -/
theorem ExtractVideoFrames_short_video (env : Env) (outputDir inputFile : String)
    (interval D : F32) (hrep : interval.Representable)
    (hmk : env.mkdirAll outputDir = none)
    (hD : GetVideoDuration env inputFile = .ok D)
    (hpos : F32.lt F32.zero interval) (hlt : F32.lt D interval) :
    ExtractVideoFrames env outputDir inputFile interval = ([], none) := by
  apply ExtractVideoFrames_of_nonpos env outputDir inputFile interval D hmk hD
  have hDrep := GetVideoDuration_representable env inputFile D hD
  cases D with
  | nan => exact absurd hlt (by simp [F32.lt])
  | inf s =>
    cases s with
    | false => cases interval with
      | nan => exact absurd hlt (by simp [F32.lt])
      | inf t => cases t <;> exact absurd hlt (by simp [F32.lt])
      | fin t n f => exact absurd hlt (by simp [F32.lt])
    | true =>
      cases interval with
      | nan => simp [F32.div, F32.toInt]
      | inf t => simp [F32.div, F32.toInt]
      | fin t n f => simp [F32.div, F32.toInt]
  | fin s m e =>
    cases interval with
    | nan => simp [F32.div, F32.toInt]
    | inf t => simp [F32.div, F32.toInt]
    | fin t n f =>
      obtain ⟨rfl, hn⟩ := F32.pos_of_lt_zero hpos
      cases s with
      | false => exact le_of_eq (F32.toInt_div_lt m n e f hDrep.1 hrep.1 hlt)
      | true =>
        apply F32.toInt_nonpos_of_neg
        simp only [F32.div, if_neg (by omega : ¬ n = 0), Bool.xor_false]
        split
        · rcases F32.round_sign true (m * 2 ^ (e - f).toNat) n with h | h
          · exact Or.inr (Or.inl h)
          · exact Or.inr (Or.inr (Or.inr h))
        · rcases F32.round_sign true m (n * 2 ^ (f - e).toNat) with h | h
          · exact Or.inr (Or.inl h)
          · exact Or.inr (Or.inr (Or.inr h))

/-- C7, witness: a video of 700 ms sampled every 1000 s. -/
theorem ExtractVideoFrames_short_video_witness :
    F32.lt F32.zero (F32.ofInt 1000) ∧
    F32.lt (.fin false 11744051 (-24)) (F32.ofInt 1000) ∧
    ExtractVideoFrames (exampleEnv "700" []) "out/" "video.mp4" (F32.ofInt 1000) = ([], none) :=
  have hpos : F32.lt F32.zero (F32.ofInt 1000) := by
    rw [F32.ofInt_thousand]
    show F32.toRat _ < F32.toRat _
    norm_num [F32.toRat]
  have hlt : F32.lt (.fin false 11744051 (-24)) (F32.ofInt 1000) := by
    rw [F32.ofInt_thousand]
    show F32.toRat _ < F32.toRat _
    norm_num [F32.toRat]
  ⟨hpos, hlt,
    ExtractVideoFrames_short_video (exampleEnv "700" []) "out/" "video.mp4" (F32.ofInt 1000)
      (.fin false 11744051 (-24)) (by decide) rfl (by decide) hpos hlt⟩

set_option maxRecDepth 20000 in
/-- C1, counterexample.  First: for the probe output `1000000` (`D` = 1000 s)
and the interval `2^-100`, with every extraction succeeding, the quotient
`D / interval` is `1000 * 2^100`, exactly and in `float32`, yet
`ExtractVideoFrames` makes no call at all: the quotient is outside the range
of `int`.  Second: for the probe output `700` and the interval one tenth, the
exact quotient of the two `float32` values has floor 6, and `ExtractVideoFrames`
makes 7 calls. -/
theorem ExtractVideoFrames_count_differs :
    (GetVideoDuration (exampleEnv "1000000" []) "video.mp4"
        = .ok (.fin false 16384000 (-14)) ∧
      F32.le F32.zero (.fin false 16384000 (-14)) ∧
      F32.lt F32.zero (.fin false 8388608 (-123)) ∧
      ⌊(F32.fin false 16384000 (-14)).toRat / (F32.fin false 8388608 (-123)).toRat⌋₊
        = 1000 * 2 ^ 100 ∧
      ⌊(F32.div (.fin false 16384000 (-14)) (.fin false 8388608 (-123))).toRat⌋₊
        = 1000 * 2 ^ 100 ∧
      ExtractVideoFrames (exampleEnv "1000000" []) "out/" "video.mp4"
        (.fin false 8388608 (-123)) = ([], none)) ∧
    (GetVideoDuration (exampleEnv "700" []) "video.mp4"
        = .ok (.fin false 11744051 (-24)) ∧
      F32.le F32.zero (.fin false 11744051 (-24)) ∧
      F32.lt F32.zero oneTenth ∧
      ⌊(F32.fin false 11744051 (-24)).toRat / oneTenth.toRat⌋₊ = 6 ∧
      (ExtractVideoFrames (exampleEnv "700" []) "out/" "video.mp4" oneTenth).1.length = 7) := by
  have hdiv : F32.div (.fin false 16384000 (-14)) (.fin false 8388608 (-123))
      = .fin false 16384000 86 := by decide
  refine ⟨⟨by decide, ?_, ?_, ?_, ?_, by decide⟩, ⟨by decide, ?_, ?_, ?_, by decide⟩⟩
  · show F32.toRat _ ≤ F32.toRat _
    norm_num [F32.toRat]
  · show F32.toRat _ < F32.toRat _
    norm_num [F32.toRat]
  · have h : (F32.fin false 16384000 (-14)).toRat / (F32.fin false 8388608 (-123)).toRat
        = ((1000 * 2 ^ 100 : Nat) : ℚ) := by
      norm_num [F32.toRat]
    rw [h, Nat.floor_natCast]
  · have h : (F32.fin false 16384000 86).toRat = ((1000 * 2 ^ 100 : Nat) : ℚ) := by
      norm_num [F32.toRat]
    rw [hdiv, h, Nat.floor_natCast]
  · show F32.toRat _ ≤ F32.toRat _
    norm_num [F32.toRat]
  · show F32.toRat _ < F32.toRat _
    norm_num [F32.toRat, oneTenth]
  · rw [Nat.floor_eq_iff (by norm_num [F32.toRat, oneTenth])]
    norm_num [F32.toRat, oneTenth]

/-- C1, amended: for every probed duration `D ≥ 0` and every interval `> 0`
whose `float32` quotient `q = D / interval` is finite and below `2^63`, when
the output directory can be created, the probe succeeds with `D` and every
extraction succeeds (the call of `ExtractFrame` for each index below
`n = floor(q)`; nothing is assumed of any other run of the transcoder),
`ExtractVideoFrames` calls `ExtractFrame` exactly `n` times, the `k`-th call
(`k = 0, ..., n-1`) carrying the frame index `k` and the timestamp
`float32(k) * interval` (the `float32` product), in increasing order of `k`,
and then returns success. -/
theorem ExtractVideoFrames_all_frames (env : Env) (outputDir inputFile : String)
    (interval D : F32)
    (hmk : env.mkdirAll outputDir = none)
    (hD : GetVideoDuration env inputFile = .ok D)
    (hD0 : F32.le F32.zero D) (hpos : F32.lt F32.zero interval)
    (hfin : (F32.div D interval).isFinite = true)
    (hrange : (F32.div D interval).toRat < 2 ^ 63)
    (hok : ∀ k : Nat, k < ⌊(F32.div D interval).toRat⌋₊ →
      ExtractFrame env k outputDir inputFile (k : Int)
        (F32.mul (F32.ofInt (k : Int)) interval) = none) :
    ExtractVideoFrames env outputDir inputFile interval =
      ((List.range ⌊(F32.div D interval).toRat⌋₊).map
        (frameCallAt outputDir inputFile interval), none) := by
  rcases F32.div_shape D interval hD0 hpos with h | h | ⟨s, k, E, h, hs⟩
  · rw [h] at hfin
    exact absurd hfin (by decide)
  · rw [h] at hfin
    exact absurd hfin (by decide)
  · have hfloor := F32.toInt_eq_floor s k E hs (by rwa [h] at hrange)
    rw [← h] at hfloor
    simp only [ExtractVideoFrames, hmk, hD, hfloor, Int.toNat_ofNat]
    split
    · rename_i h0
      have h1 : ⌊(F32.div D interval).toRat⌋₊ = 0 := by exact_mod_cast h0
      rw [h1]
      rfl
    · rw [extractLoop_all_ok env outputDir inputFile interval _ 0
        (fun j hj => by simpa using hok j hj), List.range_eq_range']

/-- C1, witness: a video of 700 ms sampled every tenth of a second gives the
frames 0 to 6, in an environment where the seven runs made succeed and any
other run of the transcoder would fail. -/
theorem ExtractVideoFrames_all_frames_witness :
    F32.le F32.zero (.fin false 11744051 (-24)) ∧ F32.lt F32.zero oneTenth ∧
    (F32.div (.fin false 11744051 (-24)) oneTenth).toRat < 2 ^ 63 ∧
    ⌊(F32.div (.fin false 11744051 (-24)) oneTenth).toRat⌋₊ = 7 ∧
    (othersFailEnv "700" 7).ffmpeg 0 [] ≠ none ∧
    ExtractVideoFrames (othersFailEnv "700" 7) "out/" "video.mp4" oneTenth =
      ((List.range ⌊(F32.div (.fin false 11744051 (-24)) oneTenth).toRat⌋₊).map
        (frameCallAt "out/" "video.mp4" oneTenth), none) :=
  have hD0 : F32.le F32.zero (.fin false 11744051 (-24)) := by
    show F32.toRat _ ≤ F32.toRat _
    norm_num [F32.toRat]
  have hpos : F32.lt F32.zero oneTenth := by
    show F32.toRat _ < F32.toRat _
    norm_num [F32.toRat, oneTenth]
  have hdiv : F32.div (.fin false 11744051 (-24)) oneTenth = .fin false 14680064 (-21) := by
    decide
  have hrange : (F32.div (.fin false 11744051 (-24)) oneTenth).toRat < 2 ^ 63 := by
    rw [hdiv]
    norm_num [F32.toRat]
  have hfloor : ⌊(F32.div (.fin false 11744051 (-24)) oneTenth).toRat⌋₊ = 7 := by
    have h7 : (F32.fin false 14680064 (-21)).toRat = ((7 : Nat) : ℚ) := by
      norm_num [F32.toRat]
    rw [hdiv, h7, Nat.floor_natCast]
  ⟨hD0, hpos, hrange, hfloor, by decide,
    ExtractVideoFrames_all_frames (othersFailEnv "700" 7) "out/" "video.mp4" oneTenth
      (.fin false 11744051 (-24)) rfl (by decide) hD0 hpos
      (by rw [hdiv]; rfl) hrange
      (by
        intro k hk
        rw [hfloor] at hk
        interval_cases k <;> rfl)⟩

/-- C10, counterexample: for the probe output `700` (`D` is the `float32`
nearest to 0.7) and the interval one tenth, `ExtractVideoFrames` calls
`ExtractFrame` for frame 6 with the timestamp `10066330 * 2^-24`, about
0.60000002, which is above `D - interval`, about 0.59999999. -/
theorem ExtractVideoFrames_timestamp_exceeds :
    GetVideoDuration (exampleEnv "700" []) "video.mp4" = .ok (.fin false 11744051 (-24)) ∧
    F32.le F32.zero (.fin false 11744051 (-24)) ∧
    F32.lt F32.zero oneTenth ∧
    (⟨"out/", "video.mp4", 6, .fin false 10066330 (-24)⟩ : FrameCall) ∈
      (ExtractVideoFrames (exampleEnv "700" []) "out/" "video.mp4" oneTenth).1 ∧
    ¬ ((F32.fin false 10066330 (-24)).toRat
        ≤ (F32.fin false 11744051 (-24)).toRat - oneTenth.toRat) := by
  refine ⟨by decide, ?_, ?_, by decide, ?_⟩
  · show F32.toRat _ ≤ F32.toRat _
    norm_num [F32.toRat]
  · show F32.toRat _ < F32.toRat _
    norm_num [F32.toRat, oneTenth]
  · norm_num [F32.toRat, oneTenth]

/-- C10, amended: for every probed duration `D ≥ 0` and every interval `> 0`,
every call of `ExtractFrame` that `ExtractVideoFrames` makes carries a frame
index `k` with `0 ≤ k` below the frame count `int(D / interval)` and the
timestamp `float32(k) * interval`, which is `≥ 0`; the frame indices of the
calls are pairwise distinct, and so are their output files, so that no output
frame file is written twice in one run.  The frame count is `floor(q)` when
the `float32` quotient `q = D / interval` is finite and below `2^63`. -/
theorem ExtractVideoFrames_calls (env : Env) (outputDir inputFile : String)
    (interval D : F32)
    (hD : GetVideoDuration env inputFile = .ok D)
    (hD0 : F32.le F32.zero D) (hpos : F32.lt F32.zero interval) :
    (∀ c ∈ (ExtractVideoFrames env outputDir inputFile interval).1,
      ∃ k : Nat, c = frameCallAt outputDir inputFile interval k ∧
        c.frameNum = (k : Int) ∧ c.frameNum < F32.toInt (F32.div D interval) ∧
        c.timestamp = F32.mul (F32.ofInt (k : Int)) interval ∧
        F32.le F32.zero c.timestamp) ∧
    (ExtractVideoFrames env outputDir inputFile interval).1.Pairwise
      (fun a b => a.frameNum ≠ b.frameNum ∧
        outputFile a.outputDir a.frameNum ≠ outputFile b.outputDir b.frameNum) ∧
    ((F32.div D interval).isFinite = true → (F32.div D interval).toRat < 2 ^ 63 →
      F32.toInt (F32.div D interval) = ((⌊(F32.div D interval).toRat⌋₊ : Nat) : Int)) := by
  obtain ⟨len, htr, hlen⟩ := ExtractVideoFrames_trace env outputDir inputFile interval
  refine ⟨?_, ?_, ?_⟩
  · intro c hc
    rw [htr, List.mem_map] at hc
    obtain ⟨k, hk, rfl⟩ := hc
    have hklen : k < len := List.mem_range.mp hk
    have hcount : (len : Int) ≤ F32.toInt (F32.div D interval) := by
      rcases hlen with h0 | ⟨D2, hD2, hle⟩
      · omega
      · rw [hD] at hD2
        rw [Except.ok.inj hD2]
        exact hle
    refine ⟨k, rfl, rfl, ?_, rfl, ?_⟩
    · show (k : Int) < _
      omega
    · show F32.le F32.zero (F32.mul (F32.ofInt (k : Int)) interval)
      cases interval with
      | nan => exact absurd hpos (by simp [F32.lt, F32.zero])
      | inf t =>
        exfalso
        have : F32.toInt (F32.div D (F32.inf t)) ≤ 0 := by
          cases D <;> simp [F32.div, F32.toInt]
        omega
      | fin t n f =>
        obtain ⟨rfl, hn⟩ := F32.pos_of_lt_zero hpos
        exact F32.le_zero_mul_ofInt k n f hn
  · rw [htr, List.pairwise_map]
    refine List.Pairwise.imp ?_ (List.pairwise_lt_range len)
    intro i j hij
    have hne : (i : Int) ≠ (j : Int) := by omega
    exact ⟨hne, fun h => hne (outputFile_injective outputDir _ _ h)⟩
  · intro hfin hrange
    rcases F32.div_shape D interval hD0 hpos with h | h | ⟨s, k, E, h, hs⟩
    · rw [h] at hfin
      exact absurd hfin (by decide)
    · rw [h] at hfin
      exact absurd hfin (by decide)
    · rw [h] at hrange ⊢
      exact F32.toInt_eq_floor s k E hs hrange

/-- C10, witness: a video of 700 ms sampled every tenth of a second. -/
theorem ExtractVideoFrames_calls_witness :
    F32.le F32.zero (.fin false 11744051 (-24)) ∧ F32.lt F32.zero oneTenth ∧
    (ExtractVideoFrames (exampleEnv "700" []) "out/" "video.mp4" oneTenth).1.Pairwise
      (fun a b => a.frameNum ≠ b.frameNum ∧
        outputFile a.outputDir a.frameNum ≠ outputFile b.outputDir b.frameNum) :=
  have hD0 : F32.le F32.zero (.fin false 11744051 (-24)) := by
    show F32.toRat _ ≤ F32.toRat _
    norm_num [F32.toRat]
  have hpos : F32.lt F32.zero oneTenth := by
    show F32.toRat _ < F32.toRat _
    norm_num [F32.toRat, oneTenth]
  ⟨hD0, hpos,
    (ExtractVideoFrames_calls (exampleEnv "700" []) "out/" "video.mp4" oneTenth
      (.fin false 11744051 (-24)) (by decide) hD0 hpos).2.1⟩

end VideoToDataset
